import Mathlib

/-!
Verification of the flowfunc-sample repository (`src/app.py`, `src/nodes.py`).

The repository is a Dash demo wiring a catalog of dataframe/plot functions
into a visual node editor. Its graph execution is delegated to the external
`flowfunc` package (`JobRunner`, `OutNode`, `Node`, `Port`), whose code is not
part of this repository; the spec describes that runner in detail, so the
runner here is modelled from the spec. Everything else (`display_output`,
`parse_uploaded_contents`, the download callback, and the functions in
`nodes.py`) is embedded from the source files.

Machine-level collaborators used by `app.py` (`json.dumps`/`json.loads`,
`base64.b64decode`, UTF-8 decoding, `str.split`) are given executable models
mirroring the documented Python semantics (ints in place of JSON floats).
-/

namespace FlowfuncSample

/-! ## Job runner data model (modelled from the spec, §3/§4.2/§7) -/

/-- Result/status values of the spec's result model (§3 ExecutionResult). -/
inductive Status where
  | idle
  | running
  | success
  | error
deriving DecidableEq, Repr

/-- Opaque result value of a node; the spec treats operation results as
opaque, so a simple countable carrier is used. -/
abbrev RValue := Nat

/-- Modelled from the spec: a binding is either a literal value or a
reference `(source_node_id, source_output_port)` (§3 GraphNode). -/
inductive Binding where
  | lit (v : RValue)
  | ref (src : String) (port : String)
deriving DecidableEq, Repr

/-- Modelled from the spec: one instance in a user graph — a type name plus a
mapping from input-port name to binding (§3 GraphNode). -/
structure GraphNode where
  type : String
  inputs : List (String × Binding)
deriving DecidableEq, Repr

/-- Modelled from the spec: a Graph is a mapping from node id to GraphNode
(§3), represented as an association list. -/
abbrev Graph := List (String × GraphNode)

/-- Modelled from the spec: a registry entry — declared output ports and the
executable operation. The operation returns either a value or a raised
condition's (kind, message) (§4.1, §7). -/
structure NodeType where
  outputs : List String
  op : List (String × RValue) → Except (String × String) RValue

/-- Modelled from the spec: the node registry, a lookup table keyed by type
name (§4.1). -/
abbrev Registry := List (String × NodeType)

/-- Modelled from the spec: the per-node result record — id, type, status,
optional result value, optional error as (kind, message) (§3). The error
kind string plays the role of the Python exception class name. -/
structure ExecutionResult where
  id : String
  type : String
  status : Status
  result : Option RValue
  error : Option (String × String)
deriving DecidableEq, Repr

/-- The source node ids referenced by a node's bindings (§4.2: A depends on B
iff any of A's bindings reference an output of B). -/
def refSources (n : GraphNode) : List String :=
  n.inputs.filterMap fun pb =>
    match pb.2 with
    | .ref s _ => some s
    | .lit _ => none

/-- Modelled from the spec: a node is ready when every referenced source that
exists in the graph already has a computed result (§4.2 iterative
resolution). A reference to a nonexistent source is not a dependency; it is
reported as `UnknownPortError` at resolution time (§8). -/
def ready (g : Graph) (done : String → Option ExecutionResult) (n : GraphNode) : Bool :=
  (refSources n).all fun s => (List.lookup s g).isNone || (done s).isSome

/-- Modelled from the spec: resolve one input binding (§4.2): a literal is
used as-is; a reference looks up the already-computed result of the source
node, propagating `UpstreamFailureError` if the source failed and
`UnknownPortError` if the source node or the named output port does not
exist. The `NotReady`/`MissingResult` branches are unreachable when the
runner calls this on a ready node. -/
def resolveBinding (reg : Registry) (g : Graph)
    (done : String → Option ExecutionResult) : Binding → Except (String × String) RValue
  | .lit v => .ok v
  | .ref s p =>
    match List.lookup s g with
    | none => .error ("UnknownPortError", "unknown source node " ++ s)
    | some srcNode =>
      match done s with
      | none => .error ("NotReady", s)
      | some r =>
        if r.status = .error then
          .error ("UpstreamFailureError", "upstream node " ++ s ++ " failed")
        else
          match List.lookup srcNode.type reg with
          | none => .error ("UnknownTypeError", "unknown node type " ++ srcNode.type)
          | some nt =>
            if nt.outputs.contains p then
              match r.result with
              | some v => .ok v
              | none => .error ("MissingResult", s)
            else .error ("UnknownPortError", "unknown port " ++ p ++ " on node " ++ s)

/-- Resolve all input bindings of a node in order, stopping at the first
failing binding (§4.2). -/
def resolveInputs (reg : Registry) (g : Graph)
    (done : String → Option ExecutionResult) :
    List (String × Binding) → Except (String × String) (List (String × RValue))
  | [] => .ok []
  | (p, b) :: rest =>
    match resolveBinding reg g done b with
    | .error e => .error e
    | .ok v =>
      match resolveInputs reg g done rest with
      | .error e => .error e
      | .ok vs => .ok ((p, v) :: vs)

/-- Modelled from the spec: evaluate one ready node (§4.2): resolve the
bindings, then invoke the operation; record `success` + result on normal
return and `error` + (kind, message) on any failure. -/
def evalNode (reg : Registry) (g : Graph) (done : String → Option ExecutionResult)
    (id : String) (node : GraphNode) : ExecutionResult :=
  match List.lookup node.type reg with
  | none =>
    { id := id, type := node.type, status := .error, result := none,
      error := some ("UnknownTypeError", "unknown node type " ++ node.type) }
  | some nt =>
    match resolveInputs reg g done node.inputs with
    | .error e =>
      { id := id, type := node.type, status := .error, result := none, error := some e }
    | .ok args =>
      match nt.op args with
      | .ok v =>
        { id := id, type := node.type, status := .success, result := some v, error := none }
      | .error e =>
        { id := id, type := node.type, status := .error, result := none, error := some e }

/-- Modelled from the spec: one resolution pass (§4.2) — every node of the
graph that is not yet computed but whose dependencies all are gets
evaluated. The pass is defined pointwise on node ids, so it has no internal
processing order. -/
def pass (reg : Registry) (g : Graph)
    (done : String → Option ExecutionResult) : String → Option ExecutionResult :=
  fun n =>
    match done n with
    | some r => some r
    | none =>
      match List.lookup n g with
      | none => none
      | some node =>
        if ready g done node then some (evalNode reg g done n node) else none

/-- `k` resolution passes starting from the empty result table. -/
def passes (reg : Registry) (g : Graph) : Nat → String → Option ExecutionResult
  | 0 => fun _ => none
  | k + 1 => pass reg g (passes reg g k)

/-- Modelled from the spec: `JobRunner.run` (§4.2, §7). `g.length` passes
resolve every resolvable node (each pass short of a fixpoint computes at
least one new node); every node still unresolved afterwards is in or behind
a dependency cycle and is marked `error`/`CyclicDependencyError`. The
returned mapping is total on the graph's node ids and the call cannot throw
(it is a total function). -/
def runJR (reg : Registry) (g : Graph) : String → Option ExecutionResult :=
  fun n =>
    match passes reg g g.length n with
    | some r => some r
    | none =>
      match List.lookup n g with
      | some node =>
        some { id := n, type := node.type, status := .error, result := none,
               error := some ("CyclicDependencyError", "cyclic dependency") }
      | none => none

/-- Modelled from the spec (§8): a graph is acyclic when some rank function
strictly decreases along every reference-binding dependency. -/
def Acyclic (g : Graph) : Prop :=
  ∃ rk : String → Nat, ∀ p ∈ g, ∀ s ∈ refSources p.2, rk s < rk p.1

/-! ## Dataframe model (`src/nodes.py`) -/

/-- A pandas column label as used in `nodes.py`: either a plain string or a
tuple of strings (multiindex columns produced by `groupby(...).agg(...)`). -/
inductive ColLabel where
  | strL (s : String)
  | tupL (xs : List String)
deriving DecidableEq, Repr

/-- The shape of a dataframe as far as `nodes.py` observes it: the labels
the index would contribute on `reset_index` (pandas inserts `"index"` for an
unnamed range index), the column labels, and the number of rows. -/
structure DataFrame where
  idxCols : List ColLabel
  cols : List ColLabel
  nrows : Nat
deriving DecidableEq, Repr

/-- `df.reset_index()`: the index labels become leading columns and the new
index is an unnamed range index. -/
def reset_index (df : DataFrame) : DataFrame :=
  { idxCols := [ColLabel.strL "index"], cols := df.idxCols ++ df.cols, nrows := df.nrows }

/-- `isinstance(x, tuple)` on a column label. -/
def isTupLabel : ColLabel → Bool
  | .tupL _ => true
  | .strL _ => false

/-- `".".join(parts)`: the parts interleaved with dots. -/
def joinParts : List String → List Char
  | [] => []
  | [s] => s.toList
  | s :: s2 :: rest => s.toList ++ '.' :: joinParts (s2 :: rest)

/-- `".".join(x)` on a column label: for a tuple it joins the components
with dots; for a plain string, Python's `join` iterates its characters, so
the characters get joined with dots. -/
def joinLabel : ColLabel → ColLabel
  | .tupL xs => .strL (String.mk (joinParts xs))
  | .strL s => .strL (String.mk (joinParts (s.toList.map Char.toString)))

/-- The characters of a string interleaved with dots — what `".".join`
does to a plain string. -/
def dotJoin : List Char → List Char
  | [] => []
  | [c] => [c]
  | c :: c2 :: rest => c :: '.' :: dotJoin (c2 :: rest)

/-- `flatten_index` from `src/nodes.py` lines 61-70: copy the dataframe, and
if any column label is a tuple apply `".".join` to every column label, then
`reset_index`. -/
def flatten_index (df : DataFrame) : DataFrame :=
  let ddf := df
  let ddf :=
    if df.cols.any isTupLabel then { ddf with cols := df.cols.map joinLabel } else ddf
  reset_index ddf

/-- The datatable built by `dataframe_to_datatable`: its column descriptors
and its records. -/
structure DataTable where
  columns : List ColLabel
  nrows : Nat
deriving DecidableEq, Repr

/-- `dataframe_to_datatable` from `src/nodes.py` lines 41-58: flatten the
index and build a dash datatable from the flattened columns and records. -/
def dataframe_to_datatable (df : DataFrame) : DataTable :=
  let ddf := flatten_index df
  { columns := ddf.cols, nrows := ddf.nrows }

/-! ## The display node (`src/nodes.py` lines 16-38) -/

/-- A Python value as `display_function` discriminates them: a dataframe, a
Dash component, or any other value together with the outcome of `str(value)`
(`.error e` models `str` itself raising, which the source catches). -/
inductive PyVal where
  | df (d : DataFrame)
  | comp (name : String)
  | other (strRes : Except String String)

/-- One entry of the display node's output container. -/
inductive DispOut where
  | table (t : DataTable)
  | component (name : String)
  | text (s : String)
deriving DecidableEq, Repr

/-- The loop body of `display_function` for one output value: a datatable
for a dataframe, the component itself for a Dash component, `str(output)`
otherwise (with the `Error: ...` fallback when `str` raises). -/
def renderInput : PyVal → DispOut
  | .df d => .table (dataframe_to_datatable d)
  | .comp c => .component c
  | .other (.ok s) => .text s
  | .other (.error e) => .text ("Error: " ++ e)

/-- `display_function` from `src/nodes.py` lines 16-29: iterate the keyword
arguments in order, appending one rendered entry per input. The result is
the child list of the returned `html.Div`. -/
def display_function (kwargs : List (String × PyVal)) : List DispOut :=
  kwargs.foldl (fun outputs p => outputs ++ [renderInput p.2]) []

/-- Whether an input carries an ordinary value whose `str` succeeds. -/
def otherOk : PyVal → Bool
  | .other (.error _) => false
  | _ => true

/-- The entry the spec expects per input: a datatable for a dataframe input,
the component itself for a component input, the string rendering otherwise
(`""` is never used: it is the fallback for the unreachable `str`-raises
case, excluded by `otherOk`). -/
def expectedEntry : PyVal → DispOut
  | .df d => .table (dataframe_to_datatable d)
  | .comp c => .component c
  | .other r => .text (r.toOption.getD "")

/-! ## The markdown node (`src/nodes.py` lines 73-99) -/

/-- Is `c` a decimal digit? -/
def isDigitC (c : Char) : Bool := 48 ≤ c.toNat && c.toNat ≤ 57

/-- The left curly-brace character. -/
def lbrace : Char := Char.ofNat 123

/-- The right curly-brace character. -/
def rbrace : Char := Char.ofNat 125

/-- Split a character list at the first right brace: returns the characters
before it and the characters after it. Models reading a replacement field
(up to its closing brace) in `str.format`. -/
def splitAtRBrace : List Char → Option (List Char × List Char)
  | [] => none
  | c :: rest =>
    if c = rbrace then some ([], rest)
    else
      match splitAtRBrace rest with
      | some (n, r) => some (c :: n, r)
      | none => none

/-- The field name of a replacement field: the text before the first `!`
(conversion) or `:` (format spec), as `string.Formatter.parse` splits it. -/
def fieldName : List Char → List Char
  | [] => []
  | c :: rest => if c = '!' ∨ c = ':' then [] else c :: fieldName rest

/-- The part of a replacement field from the first `!` or `:` on (empty when
the field is a bare name). -/
def fieldTail : List Char → List Char
  | [] => []
  | c :: rest => if c = '!' ∨ c = ':' then c :: rest else fieldTail rest

/-- Fuel-indexed model of Python's `str.format(**kwargs)` as the markdown
node calls it (keyword arguments only): `\x7b\x7b` and `\x7d\x7d` are brace
escapes; a replacement field is split into its field name and its
conversion/format-spec tail. An empty or all-digits field name is positional
and raises `IndexError` (no positional arguments are passed), a name not
supplied by `kwargs` raises `KeyError`, and an unterminated or stray brace
raises `ValueError` — all modelled by `none`. A bare name, also with the
empty format spec `name:`, is replaced by the keyword value. Fields with a
conversion, a non-empty format spec, or attribute/index access in the name
are modelled as `none`: on the string values the node receives most of
these raise (`!z`, `:.2f`, `.attr`), though some do not (`!s`, `:>3`,
`[0]`, nested specs) — Python's format-spec mini-language is out of the
model's scope and such fields are excluded from every theorem's domain.
Each step consumes at least one character, so `cs.length + 1` fuel always
suffices. -/
def pyFormatF (kw : List (String × String)) : Nat → List Char → Option (List Char)
  | 0, _ => none
  | _ + 1, [] => some []
  | fuel + 1, c :: rest =>
    if c = lbrace then
      match rest with
      | [] => none
      | c2 :: rest2 =>
        if c2 = lbrace then (pyFormatF kw fuel rest2).map (lbrace :: ·)
        else
          match splitAtRBrace (c2 :: rest2) with
          | none => none
          | some (fld, after) =>
            if (fieldName fld).isEmpty || (fieldName fld).all isDigitC then none
            else if (fieldName fld).any (fun x => x = '.' || x = '[' || x = ']') then none
            else if (fieldTail fld).isEmpty || fieldTail fld = [':'] then
              match List.lookup (String.mk (fieldName fld)) kw with
              | none => none
              | some v => (pyFormatF kw fuel after).map (v.toList ++ ·)
            else none
    else if c = rbrace then
      match rest with
      | c2 :: rest2 => if c2 = rbrace then (pyFormatF kw fuel rest2).map (rbrace :: ·) else none
      | [] => none
    else (pyFormatF kw fuel rest).map (c :: ·)

/-- `template.format(**kwargs)` for the markdown node. -/
def pyFormat (template : String) (kw : List (String × String)) : Option String :=
  (pyFormatF kw (template.toList.length + 1) template.toList).map String.mk

/-- The `dcc.Markdown` component the markdown node returns. -/
structure MarkdownComp where
  text : String
deriving DecidableEq, Repr

/-- `markdown` from `src/nodes.py` lines 73-89: return
`dcc.Markdown(template.format(**kwargs))`; `none` models the call raising
(missing keyword or malformed template). -/
def markdown (template : String) (kwargs : List (String × String)) : Option MarkdownComp :=
  (pyFormat template kwargs).map MarkdownComp.mk

/-- A parsed template segment: literal text or a named placeholder. -/
inductive Seg where
  | lit (s : List Char)
  | hole (name : String)

/-- Rebuild the template text of a segment list. -/
def renderTemplate : List Seg → List Char
  | [] => []
  | .lit s :: rest => s ++ renderTemplate rest
  | .hole n :: rest => lbrace :: n.toList ++ rbrace :: renderTemplate rest

/-- The template text with each placeholder replaced by the correspondingly
named keyword value. -/
def renderFilled (kw : List (String × String)) : List Seg → List Char
  | [] => []
  | .lit s :: rest => s ++ renderFilled kw rest
  | .hole n :: rest => ((List.lookup n kw).getD "").toList ++ renderFilled kw rest

/-- A well-formed segment for `kw`: literal text is nonempty and brace-free;
a placeholder name is a plain keyword name — nonempty, not all digits (an
all-digits or empty name is a positional field, which raises `IndexError`
under keyword-only formatting), free of braces and of the field
metacharacters `!` `:` `.` `[` `]` — and is supplied a value by `kw`. -/
def segOk (kw : List (String × String)) : Seg → Bool
  | .lit s => !s.isEmpty && s.all fun c => !(c = lbrace) && !(c = rbrace)
  | .hole n =>
    !n.toList.isEmpty && !(n.toList.all isDigitC) &&
      (n.toList.all fun c => !(c = lbrace) && !(c = rbrace) && !(c = '!') && !(c = ':') &&
        !(c = '.') && !(c = '[') && !(c = ']')) &&
      (List.lookup n kw).isSome

/-- Modelled from the spec: the port derivation of the markdown node's
`dynamic_ports` input function lives in the external flowfunc package, and
per the spec a templated-text node's "placeholders become ports". The scan
mirrors `string.Formatter.parse`: it walks the template, returns each
replacement field's name (the part before any `!` or `:`), and accepts
exactly the fields the formatter model above accepts. -/
def placeholdersF : Nat → List Char → Option (List String)
  | 0, _ => none
  | _ + 1, [] => some []
  | fuel + 1, c :: rest =>
    if c = lbrace then
      match rest with
      | [] => none
      | c2 :: rest2 =>
        if c2 = lbrace then placeholdersF fuel rest2
        else
          match splitAtRBrace (c2 :: rest2) with
          | none => none
          | some (fld, after) =>
            if (fieldName fld).isEmpty || (fieldName fld).all isDigitC then none
            else if (fieldName fld).any (fun x => x = '.' || x = '[' || x = ']') then none
            else if (fieldTail fld).isEmpty || fieldTail fld = [':'] then
              (placeholdersF fuel after).map (String.mk (fieldName fld) :: ·)
            else none
    else if c = rbrace then
      match rest with
      | c2 :: rest2 => if c2 = rbrace then placeholdersF fuel rest2 else none
      | [] => none
    else placeholdersF fuel rest

/-- The placeholder names of a template string. -/
def placeholders (template : String) : Option (List String) :=
  placeholdersF (template.toList.length + 1) template.toList

/-- The hole names of a segment list. -/
def holeNames : List Seg → List String
  | [] => []
  | .lit _ :: rest => holeNames rest
  | .hole n :: rest => n :: holeNames rest

/-! ## Sample data loader (`src/nodes.py` lines 102-124) -/

/-- `DataFileType` from `src/nodes.py`. -/
inductive DataFileType where
  | csv
  | excel
deriving DecidableEq, Repr

/-- `SampleDataURL` from `src/nodes.py`. -/
inductive SampleDataURL where
  | iris
  | titanic
  | countries
deriving DecidableEq, Repr

/-- The `.value` of each `SampleDataURL` member. -/
def SampleDataURL.value : SampleDataURL → String
  | .iris =>
    "https://gist.github.com/netj/8836201/raw/6f9306ad21398ea43cba4f7d537619d0e07d5ae3/iris.csv"
  | .titanic => "https://github.com/datasciencedojo/datasets/raw/master/titanic.csv"
  | .countries => "https://github.com/bnokoro/Data-Science/raw/master/countries%20of%20the%20world.csv"

/-- Deterministic stand-in for the table served at a URL: the network is
outside the program, and the claims about `sample_data` only need the fetch
to be deterministic and observable, so the fetched frame records the
request. -/
def remoteTable (url : String) (sep : String) : DataFrame :=
  { idxCols := [ColLabel.strL "index"],
    cols := [ColLabel.strL url, ColLabel.strL sep], nrows := url.length }

/-- `df.dropna()`: drops rows with missing values; column labels are
unchanged. The models carry no cell data, so the row count is kept. -/
def dropnaModel (df : DataFrame) : DataFrame := df

/-- `read_dataframe` from `src/nodes.py` lines 107-113, with an explicit
load counter making the I/O effect observable: every call performs one
fetch. -/
def read_dataframe (url : String) (data_type : DataFileType) (separator : String)
    (loads : Nat) : DataFrame × Nat :=
  match data_type with
  | .csv => (remoteTable url separator, loads + 1)
  | .excel => (remoteTable url ",", loads + 1)

/-- `sample_data` from `src/nodes.py` lines 122-124, embedded as written:
`functools.lru_cache` is imported at line 1 but **not applied** to this
function, so every call reaches `read_dataframe` and performs a load. -/
def sample_data (dataset : SampleDataURL) (loads : Nat) : DataFrame × Nat :=
  let (df, l) := read_dataframe dataset.value DataFileType.csv "," loads
  (dropnaModel df, l)

/-! ## `display_output` rendering (`src/app.py` lines 227-252) -/

/-- Is `needle` a contiguous sublist of the second argument? Models Python's
`in` on strings. -/
def containsSub (needle : List Char) : List Char → Bool
  | [] => needle.isEmpty
  | c :: rest => List.isPrefixOf needle (c :: rest) || containsSub needle rest

/-- `"display" in node.type`. -/
def typeHasDisplay (ty : String) : Bool :=
  containsSub "display".toList ty.toList

/-- One child appended to the output container by `display_output`: the
error block (the bold `Node <id> (<type>): <kind>` line plus the message
paragraph) or the result block of a display node. -/
inductive Child where
  | errorView (bold : String) (msg : String)
  | resultView (result : Option RValue)
deriving DecidableEq, Repr

/-- The children `display_output` appends for one result record: an error
block when `node.error` is set (`node.error.__class__.__name__` is the error
kind, `str(node.error)` the message), then the result block when `"display"`
occurs in the node type. -/
def renderNode (node : ExecutionResult) : List Child :=
  (match node.error with
   | some (k, m) =>
     [Child.errorView ("Node " ++ node.id ++ " (" ++ node.type ++ "): " ++ k) m]
   | none => []) ++
  (if typeHasDisplay node.type then [Child.resultView node.result] else [])

/-- The rendering part of `display_output` from `src/app.py` lines 235-252:
the output children accumulated over `nodes_output.values()` and the
per-node status mapping returned alongside them. -/
def display_output (nodes_output : List (String × ExecutionResult)) :
    List Child × List (String × Status) :=
  (nodes_output.foldl (fun children p => children ++ renderNode p.2) [],
   nodes_output.map fun p => (p.1, p.2.status))

/-! ## JSON values

The download callback (`src/app.py` lines 255-261) serializes the node
graph with `json.dumps`, and `parse_uploaded_contents` (lines 202-214)
parses the uploaded file with `json.loads`. Integer numbers carry their
value; a non-integer number (Python parses it to a float) is kept as its
canonical literal syntax — sign, integer digits, fraction digits,
exponent — which determines the float, so no IEEE rounding needs to be
modelled and no claim depends on float arithmetic. `json.loads` also
accepts `Infinity`, `-Infinity` and `NaN` by default (`allow_nan=True`),
modelled by dedicated leaves. Mutual inductives are used instead of a
nested `List` so that all recursions below are structural. -/

/-- The part of a non-integer number literal after its integer digits: a
fraction (first digit, further digits, optional exponent) or a bare
exponent (sign and digits); at least one of the two is always present,
which is what distinguishes the literal from an integer. -/
inductive DecTail where
  | frac (f0 : Fin 10) (fr : List (Fin 10)) (ex : Option (Bool × Nat)) : DecTail
  | exp (es : Bool) (ep : Nat) : DecTail

mutual
inductive Json where
  | null : Json
  | bool (b : Bool) : Json
  | num (n : Int) : Json
  | dec (neg : Bool) (ip : Nat) (t : DecTail) : Json
  | inf (neg : Bool) : Json
  | nan : Json
  | str (s : String) : Json
  | arr (xs : JsonList) : Json
  | obj (kvs : JsonObjList) : Json
inductive JsonList where
  | nil : JsonList
  | cons (v : Json) (tl : JsonList) : JsonList
inductive JsonObjList where
  | nil : JsonObjList
  | cons (k : String) (v : Json) (tl : JsonObjList) : JsonObjList
end

/-! ### Digits and hex -/

/-- The decimal digit character for `d < 10`. -/
def digitChar (d : Nat) : Char := Char.ofNat (48 + d)

/-- Decimal digits of `n`, most significant first, computed with explicit
fuel (`n + 1` always suffices) so that the kernel can evaluate it. -/
def natToDigitsF : Nat → Nat → List Char
  | 0, _ => []
  | fuel + 1, n => if n < 10 then [digitChar n] else natToDigitsF fuel (n / 10) ++ [digitChar (n % 10)]

/-- Decimal digits of `n`, most significant first. -/
def natToDigits (n : Nat) : List Char := natToDigitsF (n + 1) n

/-- Numeric value of a digit list (most significant first). -/
def digitsToNat (ds : List Char) : Nat := ds.foldl (fun a c => 10 * a + (c.toNat - 48)) 0

/-- Lower-case hex digit character for `d < 16` (as CPython's json emits). -/
def hexDigitChar (d : Nat) : Char := if d < 10 then Char.ofNat (48 + d) else Char.ofNat (87 + d)

/-- Numeric value of a hex digit character (upper or lower case). -/
def hexVal (c : Char) : Option Nat :=
  let n := c.toNat
  if 48 ≤ n && n ≤ 57 then some (n - 48)
  else if 97 ≤ n && n ≤ 102 then some (n - 87)
  else if 65 ≤ n && n ≤ 70 then some (n - 55)
  else none

/-- Value of four hex digit characters. -/
def hexVal4 (h1 h2 h3 h4 : Char) : Option Nat :=
  match hexVal h1, hexVal h2, hexVal h3, hexVal h4 with
  | some a, some b, some c, some d => some (a * 4096 + b * 256 + c * 16 + d)
  | _, _, _, _ => none

/-! ### `json.dumps` (ensure_ascii, compact separators) -/

/-- The six-character escape `\uXXXX` of a code unit `n < 0x10000`. -/
def uEscape (n : Nat) : List Char :=
  '\\' :: 'u' ::
    [hexDigitChar (n / 4096 % 16), hexDigitChar (n / 256 % 16),
     hexDigitChar (n / 16 % 16), hexDigitChar (n % 16)]

/-- How `json.dumps` (with its default `ensure_ascii=True`) emits one string
character: `\"` and `\\`, the short escapes for backspace, tab, newline,
form feed and carriage return, `\uXXXX` for other control characters and for
all non-ASCII characters, with a UTF-16 surrogate pair for characters beyond
`0xFFFF`; every other ASCII character stands for itself. -/
def escapeChar (c : Char) : List Char :=
  let n := c.toNat
  if c = '"' then ['\\', '"']
  else if c = '\\' then ['\\', '\\']
  else if n = 8 then ['\\', 'b']
  else if n = 9 then ['\\', 't']
  else if n = 10 then ['\\', 'n']
  else if n = 12 then ['\\', 'f']
  else if n = 13 then ['\\', 'r']
  else if n < 32 then uEscape n
  else if n < 128 then [c]
  else if n < 65536 then uEscape n
  else uEscape (55296 + (n - 65536) / 1024) ++ uEscape (56320 + (n - 65536) % 1024)

/-- The escaped body of a JSON string literal. -/
def escList : List Char → List Char
  | [] => []
  | c :: rest => escapeChar c ++ escList rest

/-- A JSON string literal for `s`. -/
def dumpStr (s : String) : List Char := '"' :: escList s.toList ++ ['"']

/-- A JSON integer literal. -/
def dumpInt (i : Int) : List Char :=
  if i < 0 then '-' :: natToDigits i.natAbs else natToDigits i.toNat

/-- The characters of a digit list. -/
def decDigits (ds : List (Fin 10)) : List Char := ds.map fun d => digitChar d.val

/-- The exponent part of a number literal: `e`, a minus sign when negative,
and the exponent digits (canonical: lower-case `e`, no plus sign, no
leading zeros). -/
def dumpExpPart : Option (Bool × Nat) → List Char
  | none => []
  | some (es, ep) => 'e' :: ((if es then ['-'] else []) ++ natToDigits ep)

/-- The fraction/exponent tail of a non-integer number literal. -/
def dumpDecTail : DecTail → List Char
  | .frac f0 fr ex => '.' :: digitChar f0.val :: (decDigits fr ++ dumpExpPart ex)
  | .exp es ep => dumpExpPart (some (es, ep))

/-- A non-integer JSON number literal: its stored digits. Python's
`json.dumps` prints a float's shortest `repr`, which denotes the same
decimal up to IEEE rounding; no claim depends on the rounding. -/
def dumpDec (neg : Bool) (ip : Nat) (t : DecTail) : List Char :=
  (if neg then ['-'] else []) ++ natToDigits ip ++ dumpDecTail t

mutual
/-- `json.dumps` on a JSON value. The Python default separators are
`", "`/`": "`; the model emits the compact `","`/`":"` — the parser below
accepts either, and no claim concerns the exact spacing of the output. -/
def dumpVal : Json → List Char
  | .null => "null".toList
  | .bool true => "true".toList
  | .bool false => "false".toList
  | .num i => dumpInt i
  | .dec neg ip t => dumpDec neg ip t
  | .inf false => "Infinity".toList
  | .inf true => "-Infinity".toList
  | .nan => "NaN".toList
  | .str s => dumpStr s
  | .arr .nil => ['[', ']']
  | .arr (.cons v tl) => '[' :: dumpArrItems (.cons v tl) ++ [']']
  | .obj .nil => [lbrace, rbrace]
  | .obj (.cons k v tl) => lbrace :: dumpObjItems (.cons k v tl) ++ [rbrace]
/-- Comma-separated array elements. -/
def dumpArrItems : JsonList → List Char
  | .nil => []
  | .cons v .nil => dumpVal v
  | .cons v (.cons w tl) => dumpVal v ++ ',' :: dumpArrItems (.cons w tl)
/-- Comma-separated `"key":value` object members. -/
def dumpObjItems : JsonObjList → List Char
  | .nil => []
  | .cons k v .nil => dumpStr k ++ ':' :: dumpVal v
  | .cons k v (.cons k2 w tl) =>
    dumpStr k ++ ':' :: dumpVal v ++ ',' :: dumpObjItems (.cons k2 w tl)
end

mutual
/-- Node count of a JSON value; an upper bound for the parser fuel it
needs. -/
def szV : Json → Nat
  | .null | .bool _ | .num _ | .dec _ _ _ | .inf _ | .nan | .str _ => 1
  | .arr xs => 1 + szL xs
  | .obj kvs => 1 + szO kvs
/-- Fuel bound for parsing a nonempty item list followed by `]`. -/
def szL : JsonList → Nat
  | .nil => 0
  | .cons v tl => 1 + szV v + szL tl
/-- Fuel bound for parsing a nonempty member list followed by the closing
brace. -/
def szO : JsonObjList → Nat
  | .nil => 0
  | .cons _ v tl => 1 + szV v + szO tl
end

/-! ### `json.loads` -/

/-- Is `c` JSON whitespace? -/
def isWsC (c : Char) : Bool := c = ' ' || c = '\t' || c = '\n' || c = '\r'

/-- Drop leading JSON whitespace. -/
def skipWs : List Char → List Char
  | [] => []
  | c :: rest => if isWsC c then skipWs rest else c :: rest

/-- The character for a simple (single-letter) JSON string escape. -/
def unescapeSimple (e : Char) : Option Char :=
  if e = '"' then some '"'
  else if e = '\\' then some '\\'
  else if e = '/' then some '/'
  else if e = 'b' then some (Char.ofNat 8)
  else if e = 'f' then some (Char.ofNat 12)
  else if e = 'n' then some (Char.ofNat 10)
  else if e = 'r' then some (Char.ofNat 13)
  else if e = 't' then some (Char.ofNat 9)
  else none

/-- Parse the body of a JSON string literal up to and including the closing
quote, returning the decoded characters and the remaining input: handles
the simple escapes, `\uXXXX`, UTF-16 surrogate pairs, and (like `strict`
`json.loads`) rejects raw control characters. A `\uXXXX` escape denoting a
lone surrogate is accepted, as `json.loads` accepts it: a high surrogate
pairs with an immediately following low-surrogate escape, and otherwise
stands alone, as does a lone low surrogate. Python keeps the lone
surrogate in the result string; a Lean `Char` cannot hold one, so the
model substitutes U+FFFD — no claim inspects the characters of a string
containing a lone surrogate. One unit of fuel is spent per decoded
character, so `length + 1` fuel always suffices. -/
def parseStrBody : Nat → List Char → Option (List Char × List Char)
  | 0, _ => none
  | _ + 1, [] => none
  | fuel + 1, c :: rest =>
    if c = '"' then some ([], rest)
    else if c = '\\' then
      match rest with
      | [] => none
      | e :: rest2 =>
        if e = 'u' then
          match rest2 with
          | h1 :: h2 :: h3 :: h4 :: rest3 =>
            match hexVal4 h1 h2 h3 h4 with
            | none => none
            | some n =>
              if 55296 ≤ n ∧ n ≤ 56319 then
                match rest3 with
                | b1 :: b2 :: g1 :: g2 :: g3 :: g4 :: rest4 =>
                  if b1 = '\\' ∧ b2 = 'u' then
                    match hexVal4 g1 g2 g3 g4 with
                    | none => none
                    | some m =>
                      if 56320 ≤ m ∧ m ≤ 57343 then
                        (parseStrBody fuel rest4).map fun pr =>
                          (Char.ofNat ((n - 55296) * 1024 + (m - 56320) + 65536) :: pr.1, pr.2)
                      else (parseStrBody fuel rest3).map fun pr =>
                        (Char.ofNat 65533 :: pr.1, pr.2)
                  else (parseStrBody fuel rest3).map fun pr => (Char.ofNat 65533 :: pr.1, pr.2)
                | _ => (parseStrBody fuel rest3).map fun pr => (Char.ofNat 65533 :: pr.1, pr.2)
              else if 56320 ≤ n ∧ n ≤ 57343 then
                (parseStrBody fuel rest3).map fun pr => (Char.ofNat 65533 :: pr.1, pr.2)
              else (parseStrBody fuel rest3).map fun pr => (Char.ofNat n :: pr.1, pr.2)
          | _ => none
        else
          match unescapeSimple e with
          | some c2 => (parseStrBody fuel rest2).map fun pr => (c2 :: pr.1, pr.2)
          | none => none
    else if c.toNat < 32 then none
    else (parseStrBody fuel rest).map fun pr => (c :: pr.1, pr.2)

/-- Parse a JSON string literal (opening quote included). -/
def parseStrLit : List Char → Option (String × List Char)
  | [] => none
  | c :: rest =>
    if c = '"' then (parseStrBody (rest.length + 1) rest).map fun pr => (String.mk pr.1, pr.2)
    else none

/-- Parse a nonempty run of decimal digits (leading zeros allowed, as in a
fraction or exponent). -/
def parseDigits (cs : List Char) : Option (Nat × List Char) :=
  let ds := cs.takeWhile isDigitC
  if ds.isEmpty then none else some (digitsToNat ds, cs.drop ds.length)

/-- The digit list of a digit-character list (used for fraction digits,
which must be kept verbatim). -/
def digitFins : List Char → List (Fin 10)
  | [] => []
  | c :: rest => (if h : c.toNat - 48 < 10 then (⟨c.toNat - 48, h⟩ : Fin 10) else 0) :: digitFins rest

/-- Parse the integer part of a JSON number: `0` or a digit run not
starting with `0`, per the grammar `json.loads` matches — `01` parses as
`0` followed by the extra character `1`. -/
def parseNatNum : List Char → Option (Nat × List Char)
  | [] => none
  | c :: rest => if c = '0' then some (0, rest) else parseDigits (c :: rest)

/-- Parse an optional fraction: a dot followed by at least one digit
(otherwise the dot is not consumed, as in `json.loads` where `1.` parses as
`1` followed by the extra character `.`). -/
def parseFrac : List Char → Option (Fin 10 × List (Fin 10) × List Char)
  | p :: c :: rest =>
    if p = '.' then
      if h : 48 ≤ c.toNat ∧ c.toNat ≤ 57 then
        some (⟨c.toNat - 48, by omega⟩, digitFins (rest.takeWhile isDigitC),
          rest.drop (rest.takeWhile isDigitC).length)
      else none
    else none
  | _ => none

/-- Parse an optional exponent: `e` or `E`, an optional sign, and at least
one digit (otherwise nothing is consumed). -/
def parseExp : List Char → Option (Bool × Nat × List Char)
  | e :: rest =>
    if e = 'e' ∨ e = 'E' then
      match rest with
      | s :: rest2 =>
        if s = '-' then (parseDigits rest2).map fun pr => (true, pr.1, pr.2)
        else if s = '+' then (parseDigits rest2).map fun pr => (false, pr.1, pr.2)
        else (parseDigits (s :: rest2)).map fun pr => (false, pr.1, pr.2)
      | [] => none
    else none
  | [] => none

/-- Assemble a number from its integer part and what follows: with a
fraction or an exponent it is a float literal (`Json.dec`), otherwise an
integer. -/
def numFromParts (neg : Bool) (ip : Nat) (cs : List Char) : Json × List Char :=
  match parseFrac cs with
  | some (f0, fr, rest3) =>
    match parseExp rest3 with
    | some (es, ep, rest4) => (.dec neg ip (.frac f0 fr (some (es, ep))), rest4)
    | none => (.dec neg ip (.frac f0 fr none), rest3)
  | none =>
    match parseExp cs with
    | some (es, ep, rest4) => (.dec neg ip (.exp es ep), rest4)
    | none => (if neg then Json.num (-(ip : Int)) else Json.num (ip : Int), cs)

/-- Parse a JSON number starting with a minus sign or a digit: `-Infinity`,
or an integer part with optional fraction and exponent. -/
def parseNumLit : List Char → Option (Json × List Char)
  | [] => none
  | c :: rest =>
    if c = '-' then
      if List.isPrefixOf "Infinity".toList rest then some (.inf true, rest.drop 8)
      else
        match parseNatNum rest with
        | none => none
        | some (ip, rest2) => some (numFromParts true ip rest2)
    else
      match parseNatNum (c :: rest) with
      | none => none
      | some (ip, rest2) => some (numFromParts false ip rest2)

/-- Can `c` not extend a number literal? The hypothesis under which parsing
a dumped number stops exactly at its end. -/
def numStop (c : Char) : Bool :=
  !(isDigitC c) && !(c = '.') && !(c = 'e') && !(c = 'E')

mutual
/-- Fuel-indexed recursive-descent parser for a JSON value, mirroring
`json.loads`. Each nested value costs one unit of fuel, so any fuel of at
least `szV v` parses the output of `dumpVal v`. -/
def parseVal : Nat → List Char → Option (Json × List Char)
  | 0, _ => none
  | fuel + 1, cs0 =>
    match skipWs cs0 with
    | [] => none
    | c :: rest =>
      if c = '"' then
        (parseStrBody (rest.length + 1) rest).map fun pr => (Json.str (String.mk pr.1), pr.2)
      else if c = '-' || isDigitC c then
        parseNumLit (c :: rest)
      else if c = '[' then
        match skipWs rest with
        | [] => none
        | c2 :: rest2 =>
          if c2 = ']' then some (.arr .nil, rest2)
          else
            match parseArrItems fuel (c2 :: rest2) with
            | some (xs, r) => some (.arr xs, r)
            | none => none
      else if c = lbrace then
        match skipWs rest with
        | [] => none
        | c2 :: rest2 =>
          if c2 = rbrace then some (.obj .nil, rest2)
          else
            match parseObjItems fuel (c2 :: rest2) with
            | some (kvs, r) => some (.obj kvs, r)
            | none => none
      else if c = 't' then
        if List.isPrefixOf "rue".toList rest then some (.bool true, rest.drop 3) else none
      else if c = 'f' then
        if List.isPrefixOf "alse".toList rest then some (.bool false, rest.drop 4) else none
      else if c = 'n' then
        if List.isPrefixOf "ull".toList rest then some (.null, rest.drop 3) else none
      else if c = 'I' then
        if List.isPrefixOf "nfinity".toList rest then some (.inf false, rest.drop 7) else none
      else if c = 'N' then
        if List.isPrefixOf "aN".toList rest then some (.nan, rest.drop 2) else none
      else none
/-- Parse one or more comma-separated array elements followed by `]`. -/
def parseArrItems : Nat → List Char → Option (JsonList × List Char)
  | 0, _ => none
  | fuel + 1, cs =>
    match parseVal fuel cs with
    | none => none
    | some (v, rest) =>
      match skipWs rest with
      | [] => none
      | c :: rest2 =>
        if c = ',' then
          match parseArrItems fuel rest2 with
          | some (xs, r) => some (.cons v xs, r)
          | none => none
        else if c = ']' then some (.cons v .nil, rest2)
        else none
/-- Parse one or more comma-separated `"key":value` members followed by the
closing brace. -/
def parseObjItems : Nat → List Char → Option (JsonObjList × List Char)
  | 0, _ => none
  | fuel + 1, cs =>
    match parseStrLit (skipWs cs) with
    | none => none
    | some (k, rest) =>
      match skipWs rest with
      | [] => none
      | c :: rest2 =>
        if c = ':' then
          match parseVal fuel rest2 with
          | none => none
          | some (v, rest3) =>
            match skipWs rest3 with
            | [] => none
            | c2 :: rest4 =>
              if c2 = ',' then
                match parseObjItems fuel rest4 with
                | some (kvs, r) => some (.cons k v kvs, r)
                | none => none
              else if c2 = rbrace then some (.cons k v .nil, rest4)
              else none
        else none
end

/-- `json.loads`: parse one JSON value and require only whitespace after
it. `cs.length + 1` fuel suffices for any input the parser accepts, since
every nested value consumes at least one input character. -/
def jsonParse (cs : List Char) : Option Json :=
  match parseVal (cs.length + 1) cs with
  | some (v, rest) => if (skipWs rest).isEmpty then some v else none
  | none => none

/-! ### base64 (`base64.b64decode` and the browser's encoder) -/

/-- The base64 alphabet. -/
def b64chars : List Char :=
  "ABCDEFGHIJKLMNOPQRSTUVWXYZabcdefghijklmnopqrstuvwxyz0123456789+/".toList

/-- The alphabet character of a sextet. -/
def b64char (n : Nat) : Char := b64chars.getD n 'A'

/-- The sextet of an alphabet character. -/
def b64index (c : Char) : Option Nat := b64chars.findIdx? (· = c)

/-- Standard base64 of a byte list, as the browser produces for the upload
data URL. -/
def b64encode : List Nat → List Char
  | [] => []
  | [a] => [b64char (a / 4), b64char (a % 4 * 16), '=', '=']
  | [a, b] => [b64char (a / 4), b64char (a % 4 * 16 + b / 16), b64char (b % 16 * 4), '=']
  | a :: b :: c :: rest =>
    b64char (a / 4) :: b64char (a % 4 * 16 + b / 16) ::
      b64char (b % 16 * 4 + c / 64) :: b64char (c % 64) :: b64encode rest

/-- The bytes of an incomplete final quad, as `binascii` emits them when
padding completes it: two sextets give one byte, three give two. -/
def emitPending : List Nat → List Nat
  | [s1, s2] => [s1 * 4 + s2 / 16]
  | [s1, s2, s3] => [s1 * 4 + s2 / 16, s2 % 16 * 16 + s3 / 4]
  | _ => []

/-- The decoding loop of `binascii.a2b_base64` in its lenient mode (what
`base64.b64decode` without `validate=True` uses): `pend` holds the sextets
of the current quad and `pads` the padding characters seen since the last
data character. A full quad emits three bytes. An `=` completes a quad of
two or three data characters once enough padding has accumulated — decoding
then stops, ignoring the rest of the input — and is skipped otherwise. A
leftover partial quad at the end of input is an error (`binascii.Error`). -/
def b64step (pend : List Nat) (pads : Nat) : List Char → Option (List Nat)
  | [] => if pend.isEmpty then some [] else none
  | c :: rest =>
    if c = '=' then
      if 2 ≤ pend.length ∧ 4 ≤ pend.length + pads + 1 then some (emitPending pend)
      else b64step pend (pads + 1) rest
    else
      match b64index c with
      | none => b64step pend 0 rest
      | some d =>
        match pend with
        | [s1, s2, s3] =>
          (b64step [] 0 rest).map fun bs =>
            (s1 * 4 + s2 / 16) :: (s2 % 16 * 16 + s3 / 4) :: (s3 % 4 * 64 + d) :: bs
        | _ => b64step (pend ++ [d]) 0 rest

/-- `base64.b64decode` (without `validate=True`): characters outside the
alphabet and padding are discarded first, then the quads are decoded
leniently. -/
def b64decode (cs : List Char) : Option (List Nat) :=
  b64step [] 0 (cs.filter fun c => b64chars.contains c || c = '=')

/-! ### UTF-8 (`bytes.decode("utf-8")`) -/

/-- Is `b` a UTF-8 continuation byte? -/
def isCont (b : Nat) : Bool := 128 ≤ b && b < 192

/-- Decode one UTF-8 scalar value from a lead byte and the remaining bytes:
the scalar value and the bytes after it, or `none` for a malformed sequence
(bad lead byte, missing or bad continuation bytes, overlong encoding,
surrogate or out-of-range value) — exactly the sequences the strict
`bytes.decode("utf-8")` rejects. -/
def utf8dec1 (b : Nat) (rest : List Nat) : Option (Nat × List Nat) :=
  if b < 128 then some (b, rest)
  else if 194 ≤ b && b < 224 then
    match rest with
    | b2 :: rest2 => if isCont b2 then some ((b - 192) * 64 + (b2 - 128), rest2) else none
    | [] => none
  else if 224 ≤ b && b < 240 then
    match rest with
    | b2 :: b3 :: rest2 =>
      if isCont b2 && isCont b3 then
        let n := (b - 224) * 4096 + (b2 - 128) * 64 + (b3 - 128)
        if n < 2048 || (55296 ≤ n && n ≤ 57343) then none else some (n, rest2)
      else none
    | _ => none
  else if 240 ≤ b && b < 245 then
    match rest with
    | b2 :: b3 :: b4 :: rest2 =>
      if isCont b2 && isCont b3 && isCont b4 then
        let n := (b - 240) * 262144 + (b2 - 128) * 4096 + (b3 - 128) * 64 + (b4 - 128)
        if 65536 ≤ n && n < 1114112 then some (n, rest2) else none
      else none
    | _ => none
  else none

/-- Fuel-indexed UTF-8 decoding loop; every scalar consumes at least one
byte, so `length + 1` fuel always suffices. -/
def utf8decodeF : Nat → List Nat → Option (List Char)
  | 0, _ => none
  | _ + 1, [] => some []
  | fuel + 1, b :: rest =>
    match utf8dec1 b rest with
    | none => none
    | some (n, rest2) => (utf8decodeF fuel rest2).map fun cs => Char.ofNat n :: cs

/-- UTF-8 decoding of a byte list; `none` models `UnicodeDecodeError`. The
graph download pipeline only decodes ASCII (since `json.dumps` has
`ensure_ascii=True`). -/
def utf8decode (bs : List Nat) : Option (List Char) := utf8decodeF (bs.length + 1) bs

/-! ### The upload/download pipeline (`src/app.py` lines 202-214, 255-261) -/

/-- Python's `contents.split(",")`. -/
def splitComma : List Char → List (List Char)
  | [] => [[]]
  | c :: rest =>
    if c = ',' then [] :: splitComma rest
    else
      match splitComma rest with
      | [] => [[c]]
      | p :: ps => (c :: p) :: ps

/-- The value of key `key` in a member list under Python-dict semantics:
`json.loads` builds a `dict`, where a later duplicate key overwrites an
earlier one, so the last binding wins. -/
def objGet (key : String) : JsonObjList → Option Json
  | .nil => none
  | .cons k v tl =>
    match objGet key tl with
    | some w => some w
    | none => if k = key then some v else none

/-- Is there a later binding of key `k` (which would shadow the current one
in the parsed `dict`)? -/
def shadowed (k : String) : JsonObjList → Bool
  | .nil => false
  | .cons k2 _ tl => k2 = k || shadowed k tl

/-- Does the field list carry a string `"type"` field (its last binding, as
in the parsed `dict`)? -/
def isOutNodeFields (kvs : JsonObjList) : Bool :=
  match objGet "type" kvs with
  | some (.str _) => true
  | _ => false

/-- Modelled from the spec: flowfunc's pydantic `OutNode` model is not under
`src/`; per §6 a serialized node is a JSON object carrying its `"type"` name
string (the other fields are opaque here), so validation checks exactly
that. -/
def isOutNode : Json → Bool
  | .obj kvs => isOutNodeFields kvs
  | _ => false

/-- Do all values of the mapping validate as `OutNode`s (the `for key, value
in data.items(): node = OutNode(**value)` loop)? `data` is a `dict`, so a
binding shadowed by a later duplicate of its key is never visited. -/
def allOutNodes : JsonObjList → Bool
  | .nil => true
  | .cons k v tl => (shadowed k tl || isOutNode v) && allOutNodes tl

/-- `parse_uploaded_contents` from `src/app.py` lines 202-214.
`.error e` models an exception escaping the function (the split/unpack,
base64 decode, UTF-8 decode and `json.loads` all run before the `try`
block); `.ok none` models the `except`-clause fall-through returning `None`
(a non-dict JSON value makes `data.items()` raise inside the `try`, and a
value rejected by `OutNode(**value)` raises inside the `try` as well);
`.ok (some data)` is the successful return of the parsed mapping. -/
def parse_uploaded_contents (contents : List Char) : Except String (Option Json) :=
  match splitComma contents with
  | [_, content_string] =>
    match b64decode content_string with
    | none => .error "binascii.Error"
    | some decoded =>
      match utf8decode decoded with
      | none => .error "UnicodeDecodeError"
      | some chars =>
        match jsonParse chars with
        | none => .error "json.JSONDecodeError"
        | some data =>
          match data with
          | .obj kvs => if allOutNodes kvs then .ok (some data) else .ok none
          | _ => .ok none
  | _ => .error "ValueError"

/-- The file content produced by the download callback (`src/app.py` lines
255-261): `json.dumps(nodes)`. -/
def downloadContent (nodes : JsonObjList) : List Char := dumpVal (.obj nodes)

/-- The `contents` string the upload control hands to
`parse_uploaded_contents`: a data URL whose payload is the base64 of the
downloaded file's bytes (`json.dumps` output is ASCII, so its bytes are the
character codes). -/
def uploadContents (nodes : JsonObjList) : List Char :=
  "data:application/json;base64".toList ++ ',' :: b64encode ((downloadContent nodes).map Char.toNat)

/-! ## Concrete fixtures used by the witnesses -/

/-- A concrete registry: a constant node, a successor node, a failing
node. -/
def wReg : Registry :=
  [("const", { outputs := ["out"], op := fun _ => .ok 7 }),
   ("inc", { outputs := ["out"],
             op := fun args =>
               match args with
               | [(_, v)] => .ok (v + 1)
               | _ => .error ("TypeError", "bad args") }),
   ("boom", { outputs := ["out"], op := fun _ => .error ("ValueError", "boom") })]

/-- A concrete two-node chain graph. -/
def wG1 : Graph :=
  [("a", { type := "const", inputs := [] }),
   ("b", { type := "inc", inputs := [("x", Binding.ref "a" "out")] })]

/-- The same graph with its nodes listed in the other order. -/
def wG2 : Graph :=
  [("b", { type := "inc", inputs := [("x", Binding.ref "a" "out")] }),
   ("a", { type := "const", inputs := [] })]

/-- A rank function showing `wG1` acyclic. -/
def wRk (n : String) : Nat := if n = "b" then 1 else 0

/-- A concrete failed execution result. -/
def wRes : ExecutionResult :=
  { id := "n1", type := "inc", status := .error, result := none,
    error := some ("ValueError", "boom") }

/-- A concrete result mapping containing a failed node. -/
def wOut : List (String × ExecutionResult) :=
  [("n0", { id := "n0", type := "const", status := .success, result := some 7, error := none }),
   ("n1", wRes)]

/-- A concrete keyword set for the markdown node. -/
def wKw : List (String × String) := [("name", "World")]

/-- A concrete template, as segments: `Hello ` + a `name` placeholder +
`!`. -/
def wSegs : List Seg := [.lit "Hello ".toList, .hole "name", .lit "!".toList]

/-- A concrete serialized graph whose single node carries a string `"type"`
field, so it validates as an `OutNode`. -/
def wNodes : JsonObjList :=
  .cons "node_1" (.obj (.cons "type" (.str "flowfunc_nodes.markdown") .nil)) .nil

theorem lookup_isSome_iff_mem {β : Type} (k : String) (g : List (String × β)) :
    (List.lookup k g).isSome ↔ k ∈ g.map Prod.fst := by
  induction g with
  | nil => simp [List.lookup]
  | cons p t ih =>
    obtain ⟨a, b⟩ := p
    simp only [List.lookup, List.map_cons, List.mem_cons]
    by_cases h : k = a
    · subst h; simp
    · have hb : (k == a) = false := by simpa using h
      rw [hb]
      simp [ih, h]

theorem passes_none_of_lookup_none (reg : Registry) (g : Graph) (n : String)
    (h : List.lookup n g = none) : ∀ k, passes reg g k n = none := by
  intro k
  induction k with
  | zero => rfl
  | succ k ih => simp [passes, pass, ih, h]

theorem evalNode_status (reg : Registry) (g : Graph)
    (done : String → Option ExecutionResult) (id : String) (node : GraphNode) :
    (evalNode reg g done id node).status = .success ∨
      (evalNode reg g done id node).status = .error := by
  unfold evalNode
  split
  · right; rfl
  · split
    · right; rfl
    · split
      · left; rfl
      · right; rfl

theorem passes_status (reg : Registry) (g : Graph) (k : Nat) (n : String)
    (r : ExecutionResult) (h : passes reg g k n = some r) :
    r.status = .success ∨ r.status = .error := by
  induction k with
  | zero => simp [passes] at h
  | succ k ih =>
    simp only [passes, pass] at h
    split at h
    · cases h
      next heq => exact ih heq
    · split at h
      · exact absurd h (by simp)
      · split at h
        · cases h
          exact evalNode_status ..
        · exact absurd h (by simp)

theorem lookup_eq_of_perm {β : Type} {g₁ g₂ : List (String × β)} (h : g₁.Perm g₂)
    (nd : (g₁.map Prod.fst).Nodup) : ∀ k, List.lookup k g₁ = List.lookup k g₂ := by
  induction h with
  | nil => intro k; rfl
  | cons x h ih =>
    intro k
    obtain ⟨a, b⟩ := x
    simp only [List.map_cons, List.nodup_cons] at nd
    simp only [List.lookup]
    rcases k == a with _ | _
    · exact ih nd.2 k
    · rfl
  | swap x y t =>
    intro k
    obtain ⟨a, b⟩ := x
    obtain ⟨c, d⟩ := y
    simp only [List.map_cons, List.nodup_cons, List.mem_cons] at nd
    have hne : c ≠ a := fun h => nd.1 (Or.inl h)
    by_cases hc : k = c <;> by_cases ha : k = a
    · exact absurd (hc.symm.trans ha) hne
    · have h1 : (k == c) = true := by simpa using hc
      have h2 : (k == a) = false := by simpa using ha
      simp [List.lookup, h1, h2]
    · have h1 : (k == c) = false := by simpa using hc
      have h2 : (k == a) = true := by simpa using ha
      simp [List.lookup, h1, h2]
    · have h1 : (k == c) = false := by simpa using hc
      have h2 : (k == a) = false := by simpa using ha
      simp [List.lookup, h1, h2]
  | trans h₁ h₂ ih₁ ih₂ =>
    intro k
    rw [ih₁ nd k, ih₂ (((h₁.map Prod.fst).nodup_iff).mp nd) k]

theorem ready_congr {g₁ g₂ : Graph}
    (hl : ∀ k, List.lookup k g₁ = List.lookup k g₂)
    (done : String → Option ExecutionResult) (n : GraphNode) :
    ready g₁ done n = ready g₂ done n := by
  simp only [ready, hl]

theorem resolveBinding_congr (reg : Registry) {g₁ g₂ : Graph}
    (hl : ∀ k, List.lookup k g₁ = List.lookup k g₂)
    (done : String → Option ExecutionResult) (b : Binding) :
    resolveBinding reg g₁ done b = resolveBinding reg g₂ done b := by
  cases b with
  | lit v => rfl
  | ref s p => simp only [resolveBinding, hl]

theorem resolveInputs_congr (reg : Registry) {g₁ g₂ : Graph}
    (hl : ∀ k, List.lookup k g₁ = List.lookup k g₂)
    (done : String → Option ExecutionResult) (l : List (String × Binding)) :
    resolveInputs reg g₁ done l = resolveInputs reg g₂ done l := by
  induction l with
  | nil => rfl
  | cons p t ih => simp only [resolveInputs, resolveBinding_congr reg hl, ih]

theorem evalNode_congr (reg : Registry) {g₁ g₂ : Graph}
    (hl : ∀ k, List.lookup k g₁ = List.lookup k g₂)
    (done : String → Option ExecutionResult) (id : String) (node : GraphNode) :
    evalNode reg g₁ done id node = evalNode reg g₂ done id node := by
  simp only [evalNode, resolveInputs_congr reg hl]

theorem pass_congr (reg : Registry) {g₁ g₂ : Graph}
    (hl : ∀ k, List.lookup k g₁ = List.lookup k g₂)
    (done : String → Option ExecutionResult) :
    pass reg g₁ done = pass reg g₂ done := by
  funext n
  simp only [pass, hl, ready_congr hl, evalNode_congr reg hl]

theorem passes_congr (reg : Registry) {g₁ g₂ : Graph}
    (hl : ∀ k, List.lookup k g₁ = List.lookup k g₂) (k : Nat) :
    passes reg g₁ k = passes reg g₂ k := by
  induction k with
  | zero => rfl
  | succ k ih => simp only [passes, ih, pass_congr reg hl]

/-! ## Claims C1, C2, C3 -/

/-- C1: `JobRunner.run` is a total function into per-node result mappings —
in the model it cannot throw — and it returns a result record for every
node of the graph, whatever error (unknown port, cycle, upstream failure,
operation failure) arose for that node, so `display_output` can consume the
returned mapping without any exception guard. -/
theorem run_returns_result_for_every_node (reg : Registry) (g : Graph) (n : String)
    (h : n ∈ g.map Prod.fst) : ∃ r, runJR reg g n = some r := by
  unfold runJR
  rcases hp : passes reg g g.length n with _ | r
  · rcases hl : List.lookup n g with _ | node
    · exact absurd ((lookup_isSome_iff_mem n g).mpr h) (by simp [hl])
    · exact ⟨_, rfl⟩
  · exact ⟨r, rfl⟩

/-- Witness for C1 on a concrete two-node graph. -/
theorem run_returns_result_for_every_node_witness :
    "b" ∈ wG1.map Prod.fst ∧ ∃ r, runJR wReg wG1 "b" = some r :=
  ⟨by decide, run_returns_result_for_every_node wReg wG1 "b" (by decide)⟩

/-- C2: on any acyclic graph the run terminates (`runJR` is a total
function) and every node of the returned mapping has status `success` or
`error`; no node is left `idle` or `running`. (The model in fact guarantees
this for every graph: nodes of a cyclic remainder are marked `error`.) -/
theorem run_final_status_success_or_error (reg : Registry) (g : Graph)
    (_hacy : Acyclic g) (n : String) (r : ExecutionResult)
    (h : runJR reg g n = some r) : r.status = .success ∨ r.status = .error := by
  unfold runJR at h
  split at h
  · cases h
    next heq => exact passes_status _ _ _ _ _ heq
  · split at h
    · cases h
      right; rfl
    · exact absurd h (by simp)

/-- Witness for C2 on a concrete acyclic two-node chain. -/
theorem run_final_status_success_or_error_witness :
    Acyclic wG1 ∧
    runJR wReg wG1 "b" =
      some { id := "b", type := "inc", status := .success, result := some 8, error := none } ∧
    (({ id := "b", type := "inc", status := .success, result := some 8,
        error := none } : ExecutionResult).status = .success ∨
     ({ id := "b", type := "inc", status := .success, result := some 8,
        error := none } : ExecutionResult).status = .error) :=
  ⟨⟨wRk, by decide⟩, by decide,
   run_final_status_success_or_error wReg wG1 ⟨wRk, by decide⟩ "b" _ (by decide)⟩

/-- C3: the run is deterministic — `runJR` is a pure function, so two
invocations on the identical graph with the identical registry agree
definitionally — and the evaluation order among mutually-independent nodes
cannot affect the result: presenting the same graph in any other order (any
permutation of its node list) yields the identical result mapping. -/
theorem run_deterministic_order_independent (reg : Registry) (g₁ g₂ : Graph)
    (hp : g₁.Perm g₂) (nd : (g₁.map Prod.fst).Nodup) :
    runJR reg g₁ = runJR reg g₂ := by
  have hl := lookup_eq_of_perm hp nd
  funext n
  simp only [runJR, passes_congr reg hl, hp.length_eq, hl]

/-- Witness for C3: two orderings of the same two-node graph produce the
same mapping. -/
theorem run_deterministic_order_independent_witness :
    wG1.Perm wG2 ∧ (wG1.map Prod.fst).Nodup ∧ runJR wReg wG1 = runJR wReg wG2 :=
  ⟨by decide, by decide,
   run_deterministic_order_independent wReg wG1 wG2 (by decide) (by decide)⟩

/-! ## Claim C4: `display_output` renders every error -/

theorem foldl_append_eq {α β : Type} (f : α → List β) (l : List α) (acc : List β) :
    l.foldl (fun cs x => cs ++ f x) acc = acc ++ (l.map f).flatten := by
  induction l generalizing acc with
  | nil => simp
  | cons x t ih => simp [ih, List.append_assoc]

theorem display_output_children_eq (m : List (String × ExecutionResult)) :
    (display_output m).1 = (m.map fun p => renderNode p.2).flatten := by
  simp only [display_output]
  rw [foldl_append_eq (fun p => renderNode p.2) m []]
  simp

/-- C4: for every node of the mapping handed to the rendering loop of
`display_output` whose record carries an error, the rendered output
contains the error block carrying the error's kind (its class name) inside
the bold header and the error's message, and the returned status mapping
carries an entry for that node; no error is dropped. -/
theorem display_output_renders_every_error (m : List (String × ExecutionResult))
    (id : String) (node : ExecutionResult) (k msg : String)
    (hmem : (id, node) ∈ m) (herr : node.error = some (k, msg)) :
    Child.errorView ("Node " ++ node.id ++ " (" ++ node.type ++ "): " ++ k) msg ∈
        (display_output m).1 ∧
      (id, node.status) ∈ (display_output m).2 := by
  constructor
  · rw [display_output_children_eq]
    refine List.mem_flatten.mpr ⟨renderNode node, List.mem_map.mpr ⟨(id, node), hmem, rfl⟩, ?_⟩
    simp [renderNode, herr]
  · simp only [display_output]
    exact List.mem_map.mpr ⟨(id, node), hmem, rfl⟩

/-- Witness for C4 on a concrete two-node result mapping. -/
theorem display_output_renders_every_error_witness :
    ("n1", wRes) ∈ wOut ∧ wRes.error = some ("ValueError", "boom") ∧
      Child.errorView ("Node " ++ wRes.id ++ " (" ++ wRes.type ++ "): " ++ "ValueError")
          "boom" ∈ (display_output wOut).1 ∧
      ("n1", wRes.status) ∈ (display_output wOut).2 :=
  ⟨by decide, by decide,
   display_output_renders_every_error wOut "n1" wRes "ValueError" "boom"
     (by decide) (by decide)⟩

/-! ## Claim C6: `sample_data` is not memoized -/

/-- Counterexample for C6: `lru_cache` is imported but never applied to
`sample_data` in `src/nodes.py`, so the second call with the same dataset
performs the load again — the load counter after two calls is 2, not 1 as
the memoization claim would require. -/
theorem sample_data_second_call_loads_again :
    ¬((sample_data .iris (sample_data .iris 0).2).2 = (sample_data .iris 0).2) := by
  decide

/-- C6 (amended): `sample_data` is not memoized — every call performs one
load (the counter always advances) — but calls with the same dataset do
return the same dataframe, the loader being deterministic. -/
theorem sample_data_loads_every_call (dataset : SampleDataURL) (loads loads' : Nat) :
    (sample_data dataset loads).2 = loads + 1 ∧
      (sample_data dataset loads).1 = (sample_data dataset loads').1 := by
  constructor <;> rfl

/-! ## Claim C7: the display node renders one entry per input -/

theorem display_function_foldl (kwargs : List (String × PyVal)) (acc : List DispOut) :
    kwargs.foldl (fun outputs p => outputs ++ [renderInput p.2]) acc =
      acc ++ kwargs.map fun p => renderInput p.2 := by
  induction kwargs generalizing acc with
  | nil => simp
  | cons p t ih => simp [ih, List.append_assoc]

theorem renderInput_eq_expected (v : PyVal) (h : otherOk v = true) :
    renderInput v = expectedEntry v := by
  cases v with
  | df d => rfl
  | comp c => rfl
  | other r =>
    cases r with
    | ok s => rfl
    | error e => simp [otherOk] at h

/-- C7: `display_function` accepts any number of keyword inputs (its port
list is the variadic `increasing_ports`), and for every input set whose
plain values render without `str` raising, the returned container holds
exactly one entry per input, in order: a datatable for a dataframe input,
the component itself for a Dash component input, and the string rendering
for every other input. -/
theorem display_function_one_entry_per_input (kwargs : List (String × PyVal))
    (h : kwargs.all (fun p => otherOk p.2) = true) :
    display_function kwargs = (kwargs.map fun p => expectedEntry p.2) ∧
      (display_function kwargs).length = kwargs.length := by
  have he : display_function kwargs = kwargs.map fun p => expectedEntry p.2 := by
    rw [display_function, display_function_foldl, List.nil_append]
    apply List.map_congr_left
    intro p hp
    exact renderInput_eq_expected p.2 (by
      have := List.all_eq_true.mp h p hp
      simpa using this)
  exact ⟨he, by simp [he]⟩

/-- Witness for C7 on a three-input call: a dataframe, a component, a plain
value. -/
theorem display_function_one_entry_per_input_witness :
    ([("a", PyVal.df { idxCols := [.strL "index"], cols := [.strL "x"], nrows := 2 }),
      ("b", PyVal.comp "graph"), ("c", PyVal.other (.ok "42"))].all
        fun p => otherOk p.2) = true ∧
      display_function
          [("a", PyVal.df { idxCols := [.strL "index"], cols := [.strL "x"], nrows := 2 }),
           ("b", PyVal.comp "graph"), ("c", PyVal.other (.ok "42"))] =
        [DispOut.table { columns := [.strL "index", .strL "x"], nrows := 2 },
         DispOut.component "graph", DispOut.text "42"] := by
  refine ⟨rfl, ?_⟩
  have h := display_function_one_entry_per_input
    [("a", PyVal.df { idxCols := [.strL "index"], cols := [.strL "x"], nrows := 2 }),
     ("b", PyVal.comp "graph"), ("c", PyVal.other (.ok "42"))] rfl
  rw [h.1]
  rfl

/-! ## Claim C10: `flatten_index` renames all-or-nothing -/

theorem joinParts_map_toString (l : List Char) :
    joinParts (l.map Char.toString) = dotJoin l := by
  induction l with
  | nil => rfl
  | cons c t ih =>
    cases t with
    | nil => rfl
    | cons c2 t2 =>
      simp only [List.map_cons] at ih ⊢
      simp only [joinParts, dotJoin]
      rw [ih]
      rfl

theorem dotJoin_length (c : Char) (l : List Char) :
    (dotJoin (c :: l)).length = 2 * l.length + 1 := by
  induction l generalizing c with
  | nil => rfl
  | cons c2 t ih =>
    simp [dotJoin, ih c2]
    omega

/-- C10: when at least one column label is a tuple, `flatten_index` applies
`".".join` to **every** column label — so a plain string label becomes its
characters joined by dots, which changes any string of length at least two
— while with no tuple label every column label is left unchanged (the
function only prepends the reset index columns); the input dataframe itself
is a pure value here, so it is unchanged by construction. -/
theorem flatten_index_all_or_nothing (df : DataFrame) :
    ((flatten_index df).cols =
        df.idxCols ++
          (if df.cols.any isTupLabel then df.cols.map joinLabel else df.cols)) ∧
      (∀ s : String, joinLabel (.strL s) = .strL (String.mk (dotJoin s.toList))) ∧
      (∀ (a b : Char) (l : List Char),
        joinLabel (.strL (String.mk (a :: b :: l))) ≠ .strL (String.mk (a :: b :: l))) := by
  refine ⟨?_, ?_, ?_⟩
  · simp only [flatten_index, reset_index]
    split <;> rfl
  · intro s
    simp [joinLabel, joinParts_map_toString]
  · intro a b l h
    simp only [joinLabel, joinParts_map_toString] at h
    have h' : dotJoin (String.mk (a :: b :: l)).toList = a :: b :: l := by
      injection h with h1
      injection h1
    have hlen := dotJoin_length a (b :: l)
    rw [show (String.mk (a :: b :: l)).toList = a :: b :: l from rfl] at h'
    have : (a :: b :: l).length = 2 * (b :: l).length + 1 := by rw [← h', hlen]
    simp at this

/-! ## Claim C8: the markdown node fills its template -/

theorem splitAtRBrace_append (nm tail : List Char) (h : ∀ c ∈ nm, c ≠ rbrace) :
    splitAtRBrace (nm ++ rbrace :: tail) = some (nm, tail) := by
  induction nm with
  | nil => simp [splitAtRBrace]
  | cons m ms ih =>
    have hm : m ≠ rbrace := h m (by simp)
    simp only [List.cons_append, splitAtRBrace, if_neg hm, List.append_eq]
    rw [ih fun c hc => h c (by simp [hc])]

theorem fieldName_plain (l : List Char) (h : ∀ c ∈ l, ¬(c = '!') ∧ ¬(c = ':')) :
    fieldName l = l := by
  induction l with
  | nil => rfl
  | cons c rest ih =>
    have hc := h c (by simp)
    simp only [fieldName, if_neg (show ¬(c = '!' ∨ c = ':') from by
      rintro (h1 | h2)
      · exact hc.1 h1
      · exact hc.2 h2)]
    rw [ih fun x hx => h x (by simp [hx])]

theorem fieldTail_plain (l : List Char) (h : ∀ c ∈ l, ¬(c = '!') ∧ ¬(c = ':')) :
    fieldTail l = [] := by
  induction l with
  | nil => rfl
  | cons c rest ih =>
    have hc := h c (by simp)
    simp only [fieldTail, if_neg (show ¬(c = '!' ∨ c = ':') from by
      rintro (h1 | h2)
      · exact hc.1 h1
      · exact hc.2 h2)]
    exact ih fun x hx => h x (by simp [hx])

theorem pyFormatF_renderTemplate (kw : List (String × String)) :
    ∀ (fuel : Nat) (segs : List Seg), segs.all (segOk kw) = true →
      (renderTemplate segs).length < fuel →
      pyFormatF kw fuel (renderTemplate segs) = some (renderFilled kw segs) := by
  intro fuel
  induction fuel with
  | zero => intro segs _ hlen; exact absurd hlen (by omega)
  | succ f ih =>
    intro segs hok hlen
    match segs with
    | [] => rfl
    | .lit [] :: rest => simp [segOk] at hok
    | .lit (c :: s) :: rest =>
      simp only [List.all_cons, Bool.and_eq_true, segOk, List.isEmpty_cons] at hok
      obtain ⟨⟨-, hall⟩, hrest⟩ := hok
      simp only [List.all_cons, Bool.and_eq_true, Bool.not_eq_true', decide_eq_false_iff_not]
        at hall
      obtain ⟨⟨hclb, hcrb⟩, hsall⟩ := hall
      have hstep : renderTemplate (.lit (c :: s) :: rest) =
          c :: (s ++ renderTemplate rest) := rfl
      rw [hstep]
      simp only [pyFormatF, if_neg hclb, if_neg hcrb]
      by_cases hs : s = []
      · subst hs
        simp only [List.nil_append]
        rw [ih rest hrest (by
          rw [hstep] at hlen
          simp only [List.length_cons, List.nil_append] at hlen ⊢
          omega)]
        rfl
      · have hok2 : (Seg.lit s :: rest).all (segOk kw) = true := by
          simp only [List.all_cons, Bool.and_eq_true, segOk]
          refine ⟨⟨?_, ?_⟩, hrest⟩
          · simpa [List.isEmpty_iff] using hs
          · simpa [List.all_eq_true, Bool.not_eq_true', decide_eq_false_iff_not]
              using hsall
        have hre : s ++ renderTemplate rest = renderTemplate (.lit s :: rest) := rfl
        rw [hre, ih (.lit s :: rest) hok2 (by
          rw [hstep, hre] at hlen
          simp only [List.length_cons] at hlen
          omega)]
        rfl
    | .hole n :: rest =>
      simp only [List.all_cons, Bool.and_eq_true, segOk, Bool.not_eq_true'] at hok
      obtain ⟨⟨⟨⟨hne, hnd⟩, hnall⟩, hlook⟩, hrest⟩ := hok
      simp only [List.all_eq_true, Bool.and_eq_true, Bool.not_eq_true',
        decide_eq_false_iff_not] at hnall
      obtain ⟨v, hv⟩ := Option.isSome_iff_exists.mp hlook
      have hstep : renderTemplate (.hole n :: rest) =
          lbrace :: (n.toList ++ rbrace :: renderTemplate rest) := rfl
      rw [hstep]
      have hlen2 : (renderTemplate rest).length < f := by
        rw [hstep] at hlen
        simp only [List.length_cons, List.length_append] at hlen
        omega
      have hmk : String.mk n.toList = n := rfl
      cases hn : n.toList with
      | nil => rw [hn] at hne; simp at hne
      | cons m ms =>
        have hfacts : ∀ x ∈ m :: ms, ¬(x = lbrace) ∧ ¬(x = rbrace) ∧ ¬(x = '!') ∧
            ¬(x = ':') ∧ ¬(x = '.') ∧ ¬(x = '[') ∧ ¬(x = ']') := by
          intro x hx
          have := hnall x (by rw [hn]; exact hx)
          tauto
        have hmlb : ¬(m = lbrace) := (hfacts m (by simp)).1
        have hsp : splitAtRBrace (m :: (ms ++ rbrace :: renderTemplate rest)) =
            some (m :: ms, renderTemplate rest) := by
          have := splitAtRBrace_append (m :: ms) (renderTemplate rest) (by
            intro x hx
            exact (hfacts x hx).2.1)
          simpa using this
        have hsep : ∀ x ∈ m :: ms, ¬(x = '!') ∧ ¬(x = ':') := by
          intro x hx
          exact ⟨(hfacts x hx).2.2.1, (hfacts x hx).2.2.2.1⟩
        simp only [List.cons_append, pyFormatF, if_true, if_neg hmlb, hsp]
        rw [fieldName_plain (m :: ms) hsep, fieldTail_plain (m :: ms) hsep]
        rw [if_neg (show ¬(((m :: ms).isEmpty || (m :: ms).all isDigitC) = true) from by
          simp only [List.isEmpty_cons, Bool.false_or]
          rw [← hn, hnd]
          decide)]
        rw [if_neg (show ¬((((m :: ms).any fun x => x = '.' || x = '[' || x = ']')) = true)
            from by
          simp only [List.any_eq_true, Bool.or_eq_true, decide_eq_true_eq]
          rintro ⟨x, hx, (h | h) | h⟩
          · exact (hfacts x hx).2.2.2.2.1 h
          · exact (hfacts x hx).2.2.2.2.2.1 h
          · exact (hfacts x hx).2.2.2.2.2.2 h)]
        rw [if_pos (show (([] : List Char).isEmpty || ([] : List Char) = [':']) = true
          from by decide)]
        rw [show (String.mk (m :: ms) : String) = n from hn ▸ hmk, hv]
        rw [ih rest hrest hlen2]
        simp only [Option.map_some']
        rw [show renderFilled kw (.hole n :: rest) =
          ((List.lookup n kw).getD "").toList ++ renderFilled kw rest from rfl, hv]
        rfl

theorem placeholdersF_renderTemplate (kw : List (String × String)) :
    ∀ (fuel : Nat) (segs : List Seg), segs.all (segOk kw) = true →
      (renderTemplate segs).length < fuel →
      placeholdersF fuel (renderTemplate segs) = some (holeNames segs) := by
  intro fuel
  induction fuel with
  | zero => intro segs _ hlen; exact absurd hlen (by omega)
  | succ f ih =>
    intro segs hok hlen
    match segs with
    | [] => rfl
    | .lit [] :: rest => simp [segOk] at hok
    | .lit (c :: s) :: rest =>
      simp only [List.all_cons, Bool.and_eq_true, segOk, List.isEmpty_cons] at hok
      obtain ⟨⟨-, hall⟩, hrest⟩ := hok
      simp only [List.all_cons, Bool.and_eq_true, Bool.not_eq_true', decide_eq_false_iff_not]
        at hall
      obtain ⟨⟨hclb, hcrb⟩, hsall⟩ := hall
      have hstep : renderTemplate (.lit (c :: s) :: rest) =
          c :: (s ++ renderTemplate rest) := rfl
      rw [hstep]
      simp only [placeholdersF, if_neg hclb, if_neg hcrb]
      by_cases hs : s = []
      · subst hs
        simp only [List.nil_append]
        exact ih rest hrest (by
          rw [hstep] at hlen
          simp only [List.length_cons, List.nil_append] at hlen ⊢
          omega)
      · have hok2 : (Seg.lit s :: rest).all (segOk kw) = true := by
          simp only [List.all_cons, Bool.and_eq_true, segOk]
          refine ⟨⟨?_, ?_⟩, hrest⟩
          · simpa [List.isEmpty_iff] using hs
          · simpa [List.all_eq_true, Bool.not_eq_true', decide_eq_false_iff_not]
              using hsall
        have hre : s ++ renderTemplate rest = renderTemplate (.lit s :: rest) := rfl
        rw [hre]
        exact ih (.lit s :: rest) hok2 (by
          rw [hstep, hre] at hlen
          simp only [List.length_cons] at hlen
          omega)
    | .hole n :: rest =>
      simp only [List.all_cons, Bool.and_eq_true, segOk, Bool.not_eq_true'] at hok
      obtain ⟨⟨⟨⟨hne, hnd⟩, hnall⟩, hlook⟩, hrest⟩ := hok
      simp only [List.all_eq_true, Bool.and_eq_true, Bool.not_eq_true',
        decide_eq_false_iff_not] at hnall
      have hstep : renderTemplate (.hole n :: rest) =
          lbrace :: (n.toList ++ rbrace :: renderTemplate rest) := rfl
      rw [hstep]
      have hlen2 : (renderTemplate rest).length < f := by
        rw [hstep] at hlen
        simp only [List.length_cons, List.length_append] at hlen
        omega
      have hmk : String.mk n.toList = n := rfl
      cases hn : n.toList with
      | nil => rw [hn] at hne; simp at hne
      | cons m ms =>
        have hfacts : ∀ x ∈ m :: ms, ¬(x = lbrace) ∧ ¬(x = rbrace) ∧ ¬(x = '!') ∧
            ¬(x = ':') ∧ ¬(x = '.') ∧ ¬(x = '[') ∧ ¬(x = ']') := by
          intro x hx
          have := hnall x (by rw [hn]; exact hx)
          tauto
        have hmlb : ¬(m = lbrace) := (hfacts m (by simp)).1
        have hsp : splitAtRBrace (m :: (ms ++ rbrace :: renderTemplate rest)) =
            some (m :: ms, renderTemplate rest) := by
          have := splitAtRBrace_append (m :: ms) (renderTemplate rest) (by
            intro x hx
            exact (hfacts x hx).2.1)
          simpa using this
        have hsep : ∀ x ∈ m :: ms, ¬(x = '!') ∧ ¬(x = ':') := by
          intro x hx
          exact ⟨(hfacts x hx).2.2.1, (hfacts x hx).2.2.2.1⟩
        simp only [List.cons_append, placeholdersF, if_true, if_neg hmlb, hsp]
        rw [fieldName_plain (m :: ms) hsep, fieldTail_plain (m :: ms) hsep]
        rw [if_neg (show ¬(((m :: ms).isEmpty || (m :: ms).all isDigitC) = true) from by
          simp only [List.isEmpty_cons, Bool.false_or]
          rw [← hn, hnd]
          decide)]
        rw [if_neg (show ¬((((m :: ms).any fun x => x = '.' || x = '[' || x = ']')) = true)
            from by
          simp only [List.any_eq_true, Bool.or_eq_true, decide_eq_true_eq]
          rintro ⟨x, hx, (h | h) | h⟩
          · exact (hfacts x hx).2.2.2.2.1 h
          · exact (hfacts x hx).2.2.2.2.2.1 h
          · exact (hfacts x hx).2.2.2.2.2.2 h)]
        rw [if_pos (show (([] : List Char).isEmpty || ([] : List Char) = [':']) = true
          from by decide)]
        rw [ih rest hrest hlen2]
        simp only [Option.map_some']
        rw [show (String.mk (m :: ms) : String) = n from hn ▸ hmk]
        rfl

/-- C8: for every template assembled from literal text and curly-brace
placeholders whose names are plain keyword names (nonempty, not all digits
— an empty or all-digits field is positional and raises `IndexError` under
keyword-only formatting — and free of the field metacharacters `!` `:` `.`
`[` `]`), and every keyword-input set supplying a value for each
placeholder, the markdown node's operation returns
`dcc.Markdown(template.format(**kwargs))`: the template text with each
placeholder replaced by the correspondingly named input value; and the
placeholder scan (from which the node's `dynamic_ports` input ports are
derived) recovers exactly the placeholder names. -/
theorem markdown_fills_template (segs : List Seg) (kw : List (String × String))
    (hok : segs.all (segOk kw) = true) :
    markdown (String.mk (renderTemplate segs)) kw =
        some (MarkdownComp.mk (String.mk (renderFilled kw segs))) ∧
      placeholders (String.mk (renderTemplate segs)) = some (holeNames segs) := by
  constructor
  · have h := pyFormatF_renderTemplate kw ((renderTemplate segs).length + 1) segs hok
      (by omega)
    simp only [markdown, pyFormat]
    rw [show (String.mk (renderTemplate segs)).toList = renderTemplate segs from rfl, h]
    rfl
  · have h := placeholdersF_renderTemplate kw ((renderTemplate segs).length + 1) segs hok
      (by omega)
    simp only [placeholders]
    rw [show (String.mk (renderTemplate segs)).toList = renderTemplate segs from rfl, h]

/-- Witness for C8 on the template `Hello [name]!` with `name := World`. -/
theorem markdown_fills_template_witness :
    wSegs.all (segOk wKw) = true ∧
      (markdown (String.mk (renderTemplate wSegs)) wKw =
          some (MarkdownComp.mk (String.mk (renderFilled wKw wSegs))) ∧
        placeholders (String.mk (renderTemplate wSegs)) = some (holeNames wSegs)) ∧
      markdown (String.mk (renderTemplate wSegs)) wKw =
        some (MarkdownComp.mk "Hello World!") ∧
      placeholders (String.mk (renderTemplate wSegs)) = some ["name"] :=
  ⟨by decide, markdown_fills_template wSegs wKw (by decide), by decide, by decide⟩

/-! ## Upload pipeline: split and base64 lemmas -/

theorem splitComma_no_comma (l : List Char) (h : ',' ∉ l) : splitComma l = [l] := by
  induction l with
  | nil => rfl
  | cons c rest ih =>
    have hc : ¬(c = ',') := fun he => h (he ▸ List.mem_cons_self c rest)
    simp only [splitComma, if_neg hc]
    rw [ih fun hm => h (List.mem_cons_of_mem c hm)]

theorem splitComma_two (a b : List Char) (ha : ',' ∉ a) (hb : ',' ∉ b) :
    splitComma (a ++ ',' :: b) = [a, b] := by
  induction a with
  | nil =>
    simp only [List.nil_append, splitComma, if_pos rfl]
    rw [splitComma_no_comma b hb]
    simp
  | cons c rest ih =>
    have hc : ¬(c = ',') := fun he => ha (he ▸ List.mem_cons_self c rest)
    simp only [List.cons_append, splitComma, if_neg hc, List.append_eq]
    rw [ih fun hm => ha (List.mem_cons_of_mem c hm)]

theorem b64char_mem (n : Nat) : b64char n ∈ b64chars := by
  unfold b64char
  by_cases h : n < b64chars.length
  · rw [List.getD_eq_getElem b64chars 'A' h]
    exact List.getElem_mem h
  · rw [List.getD_eq_default b64chars 'A' (by omega)]
    decide

theorem b64char_ne_pad (n : Nat) : b64char n ≠ '=' := by
  intro h
  have := b64char_mem n
  rw [h] at this
  exact absurd this (by decide)

theorem b64char_ne_comma (n : Nat) : b64char n ≠ ',' := by
  intro h
  have := b64char_mem n
  rw [h] at this
  exact absurd this (by decide)

theorem b64encode_chars (bs : List Nat) :
    ∀ c ∈ b64encode bs, c ∈ b64chars ∨ c = '=' := by
  induction bs using b64encode.induct with
  | case1 => intro c hc; exact absurd hc (by simp [b64encode])
  | case2 a =>
    intro c hc
    simp only [b64encode, List.mem_cons, List.not_mem_nil, or_false] at hc
    rcases hc with h | h | h | h
    all_goals first
      | exact Or.inl (h ▸ b64char_mem _)
      | exact Or.inr h
  | case3 a b =>
    intro c hc
    simp only [b64encode, List.mem_cons, List.not_mem_nil, or_false] at hc
    rcases hc with h | h | h | h
    all_goals first
      | exact Or.inl (h ▸ b64char_mem _)
      | exact Or.inr h
  | case4 a b cc rest ih =>
    intro c hc
    simp only [b64encode, List.mem_cons] at hc
    rcases hc with h | h | h | h | h
    · exact Or.inl (h ▸ b64char_mem _)
    · exact Or.inl (h ▸ b64char_mem _)
    · exact Or.inl (h ▸ b64char_mem _)
    · exact Or.inl (h ▸ b64char_mem _)
    · exact ih c h

theorem b64encode_no_comma (bs : List Nat) : ',' ∉ b64encode bs := by
  intro hc
  rcases b64encode_chars bs ',' hc with h | h
  · exact absurd h (by decide)
  · exact absurd h (by decide)

theorem b64encode_filter (bs : List Nat) :
    (b64encode bs).filter (fun c => b64chars.contains c || c = '=') = b64encode bs := by
  apply List.filter_eq_self.mpr
  intro c hc
  rcases b64encode_chars bs c hc with h | h
  · have hc2 : b64chars.contains c = true := List.elem_iff.mpr h
    simp [hc2, h]
  · simp [h]

theorem b64index_b64char (k : Nat) (h : k < 64) : b64index (b64char k) = some k := by
  interval_cases k <;> rfl

theorem b64encode_cons_shape (x : Nat) (xs : List Nat) :
    ∃ d tl, b64encode (x :: xs) = d :: tl := by
  rcases xs with _ | ⟨x2, xs2⟩
  · exact ⟨_, _, rfl⟩
  · rcases xs2 with _ | ⟨x3, xs3⟩
    · exact ⟨_, _, rfl⟩
    · exact ⟨_, _, rfl⟩

theorem b64step_encode (bs : List Nat) (h : ∀ b ∈ bs, b < 256) :
    b64step [] 0 (b64encode bs) = some bs := by
  induction bs using b64encode.induct with
  | case1 => rfl
  | case2 a =>
    have ha : a < 256 := h a (by simp)
    have i1 := b64index_b64char (a / 4) (by omega)
    have i2 := b64index_b64char (a % 4 * 16) (by omega)
    simp [b64encode, b64step, i1, i2, b64char_ne_pad, emitPending]
    omega
  | case3 a b =>
    have ha : a < 256 := h a (by simp)
    have hb : b < 256 := h b (by simp)
    have i1 := b64index_b64char (a / 4) (by omega)
    have i2 := b64index_b64char (a % 4 * 16 + b / 16) (by omega)
    have i3 := b64index_b64char (b % 16 * 4) (by omega)
    simp [b64encode, b64step, i1, i2, i3, b64char_ne_pad, emitPending]
    omega
  | case4 a b c rest ih =>
    have ha : a < 256 := h a (by simp)
    have hb : b < 256 := h b (by simp)
    have hc : c < 256 := h c (by simp)
    have ihr := ih (fun x hx => h x (by simp [hx]))
    have i1 := b64index_b64char (a / 4) (by omega)
    have i2 := b64index_b64char (a % 4 * 16 + b / 16) (by omega)
    have i3 := b64index_b64char (b % 16 * 4 + c / 64) (by omega)
    have i4 := b64index_b64char (c % 64) (by omega)
    simp [b64encode, b64step, i1, i2, i3, i4, b64char_ne_pad, ihr]
    omega

theorem b64decode_encode (bs : List Nat) (h : ∀ b ∈ bs, b < 256) :
    b64decode (b64encode bs) = some bs := by
  rw [b64decode, b64encode_filter, b64step_encode bs h]

/-! ## UTF-8 lemma -/

theorem utf8decodeF_ascii :
    ∀ (fuel : Nat) (bs : List Nat), bs.length < fuel → (∀ b ∈ bs, b < 128) →
      utf8decodeF fuel bs = some (bs.map Char.ofNat) := by
  intro fuel
  induction fuel with
  | zero => intro bs h _; exact absurd h (by omega)
  | succ f ih =>
    intro bs hlen h
    match bs with
    | [] => rfl
    | b :: rest =>
      have hb : b < 128 := h b (by simp)
      have h1 : utf8dec1 b rest = some (b, rest) := by
        unfold utf8dec1
        rw [if_pos hb]
      simp only [utf8decodeF, h1]
      rw [ih rest (by simpa using Nat.lt_of_succ_lt_succ hlen) fun x hx => h x (by simp [hx])]
      rfl

theorem utf8decode_ascii (bs : List Nat) (h : ∀ b ∈ bs, b < 128) :
    utf8decode bs = some (bs.map Char.ofNat) :=
  utf8decodeF_ascii (bs.length + 1) bs (by omega) h

theorem map_ofNat_toNat (cs : List Char) :
    (cs.map Char.toNat).map Char.ofNat = cs := by
  rw [List.map_map]
  exact List.map_congr_left (fun c _ => Char.ofNat_toNat c) |>.trans (List.map_id cs)

/-! ## Decimal digit lemmas -/

theorem digitChar_toNat (d : Nat) (h : d < 10) : (digitChar d).toNat = 48 + d := by
  interval_cases d <;> rfl

theorem isDigitC_digitChar (d : Nat) (h : d < 10) : isDigitC (digitChar d) = true := by
  interval_cases d <;> rfl

theorem natToDigitsF_irrel : ∀ f1 n, n < f1 → ∀ f2, n < f2 →
    natToDigitsF f1 n = natToDigitsF f2 n := by
  intro f1
  induction f1 with
  | zero => intro n h; exact absurd h (by omega)
  | succ f ih =>
    intro n hn f2 hf2
    cases f2 with
    | zero => exact absurd hf2 (by omega)
    | succ f2 =>
      simp only [natToDigitsF]
      by_cases h10 : n < 10
      · rw [if_pos h10, if_pos h10]
      · rw [if_neg h10, if_neg h10, ih (n / 10) (by omega) f2 (by omega)]

theorem natToDigits_eq (n : Nat) :
    natToDigits n =
      if n < 10 then [digitChar n]
      else natToDigits (n / 10) ++ [digitChar (n % 10)] := by
  have hstep : natToDigits n =
      if n < 10 then [digitChar n] else natToDigitsF n (n / 10) ++ [digitChar (n % 10)] := rfl
  rw [hstep]
  by_cases h10 : n < 10
  · rw [if_pos h10, if_pos h10]
  · rw [if_neg h10, if_neg h10,
      natToDigitsF_irrel n (n / 10) (by omega) (n / 10 + 1) (by omega)]
    rfl

theorem natToDigits_ne_nil (n : Nat) : natToDigits n ≠ [] := by
  rw [natToDigits_eq]
  by_cases h10 : n < 10
  · rw [if_pos h10]; simp
  · rw [if_neg h10]; simp

theorem natToDigits_digits (n : Nat) : ∀ c ∈ natToDigits n, isDigitC c = true := by
  induction n using Nat.strong_induction_on with
  | _ n ih =>
    rw [natToDigits_eq]
    by_cases h10 : n < 10
    · rw [if_pos h10]
      intro c hc
      rw [List.mem_singleton] at hc
      exact hc ▸ isDigitC_digitChar n h10
    · rw [if_neg h10]
      intro c hc
      rcases List.mem_append.mp hc with h | h
      · exact ih (n / 10) (by omega) c h
      · rw [List.mem_singleton] at h
        exact h ▸ isDigitC_digitChar (n % 10) (by omega)

theorem isDigitC_toNat {c : Char} (h : isDigitC c = true) :
    48 ≤ c.toNat ∧ c.toNat ≤ 57 := by
  unfold isDigitC at h
  simp only [Bool.and_eq_true, decide_eq_true_eq] at h
  exact h

theorem digitsToNat_append (ds : List Char) (d : Char) :
    digitsToNat (ds ++ [d]) = 10 * digitsToNat ds + (d.toNat - 48) := by
  simp [digitsToNat, List.foldl_append]

theorem digitsToNat_natToDigits (n : Nat) : digitsToNat (natToDigits n) = n := by
  induction n using Nat.strong_induction_on with
  | _ n ih =>
    rw [natToDigits_eq]
    by_cases h10 : n < 10
    · rw [if_pos h10]
      interval_cases n <;> rfl
    · rw [if_neg h10, digitsToNat_append, ih (n / 10) (by omega),
        digitChar_toNat (n % 10) (by omega)]
      omega

theorem takeWhile_append_all (p : Char → Bool) (ds rest : List Char)
    (hds : ∀ c ∈ ds, p c = true) (hrest : ∀ c, rest.head? = some c → p c = false) :
    (ds ++ rest).takeWhile p = ds := by
  induction ds with
  | nil =>
    cases rest with
    | nil => rfl
    | cons c rest' => simp [List.takeWhile_cons, hrest c rfl]
  | cons d ds' ih =>
    simp only [List.cons_append, List.takeWhile_cons, hds d (by simp), if_true]
    rw [ih fun c hc => hds c (by simp [hc])]

theorem parseDigits_natToDigits (n : Nat) (rest : List Char)
    (hrest : ∀ c, rest.head? = some c → isDigitC c = false) :
    parseDigits (natToDigits n ++ rest) = some (n, rest) := by
  have ht := takeWhile_append_all isDigitC (natToDigits n) rest (natToDigits_digits n) hrest
  have hne : (natToDigits n).isEmpty = false := by
    cases h : natToDigits n with
    | nil => exact absurd h (natToDigits_ne_nil n)
    | cons c cs => rfl
  simp only [parseDigits, ht, hne, Bool.false_eq_true, if_false,
    digitsToNat_natToDigits, List.drop_left]

theorem natToDigits_head_pos (n : Nat) (h : 0 < n) :
    ∀ c, (natToDigits n).head? = some c → ¬(c = '0') := by
  induction n using Nat.strong_induction_on with
  | _ n ih =>
    intro c hc he
    rw [natToDigits_eq] at hc
    by_cases h10 : n < 10
    · rw [if_pos h10] at hc
      simp only [List.head?_cons, Option.some.injEq] at hc
      subst he
      have htn := digitChar_toNat n h10
      rw [hc] at htn
      have h48 : ('0' : Char).toNat = 48 := rfl
      omega
    · rw [if_neg h10] at hc
      obtain ⟨d, ds, hd⟩ : ∃ d ds, natToDigits (n / 10) = d :: ds := by
        cases hx : natToDigits (n / 10) with
        | nil => exact absurd hx (natToDigits_ne_nil _)
        | cons d ds => exact ⟨d, ds, rfl⟩
      rw [hd, List.cons_append] at hc
      simp only [List.head?_cons, Option.some.injEq] at hc
      exact ih (n / 10) (by omega) (by omega) c (by rw [hd, hc]; rfl) he

theorem parseNatNum_natToDigits (n : Nat) (rest : List Char)
    (hrest : ∀ c, rest.head? = some c → isDigitC c = false) :
    parseNatNum (natToDigits n ++ rest) = some (n, rest) := by
  by_cases hz : n = 0
  · subst hz
    rw [show natToDigits 0 = ['0'] from rfl]
    rfl
  · obtain ⟨c, cs, hc⟩ : ∃ c cs, natToDigits n = c :: cs := by
      cases hx : natToDigits n with
      | nil => exact absurd hx (natToDigits_ne_nil _)
      | cons c cs => exact ⟨c, cs, rfl⟩
    have h0 : ¬(c = '0') := natToDigits_head_pos n (by omega) c (by rw [hc]; rfl)
    rw [hc, List.cons_append]
    simp only [parseNatNum, if_neg h0]
    rw [← List.cons_append, ← hc, parseDigits_natToDigits n rest hrest]

/-! ## ASCII bound on the `json.dumps` output -/

theorem hexDigitChar_toNat (d : Nat) (h : d < 16) : (hexDigitChar d).toNat < 128 := by
  interval_cases d <;> decide

theorem uEscape_ascii (n : Nat) : ∀ c ∈ uEscape n, c.toNat < 128 := by
  intro c hc
  simp only [uEscape, List.mem_cons, List.not_mem_nil, or_false] at hc
  rcases hc with h | h | h | h | h | h
  · exact h ▸ (by decide)
  · exact h ▸ (by decide)
  · exact h ▸ hexDigitChar_toNat _ (by omega)
  · exact h ▸ hexDigitChar_toNat _ (by omega)
  · exact h ▸ hexDigitChar_toNat _ (by omega)
  · exact h ▸ hexDigitChar_toNat _ (by omega)

theorem escapeChar_ascii (x : Char) : ∀ c ∈ escapeChar x, c.toNat < 128 := by
  intro c hc
  simp only [escapeChar] at hc
  by_cases h1 : x = '"'
  · rw [if_pos h1] at hc
    fin_cases hc <;> decide
  rw [if_neg h1] at hc
  by_cases h2 : x = '\\'
  · rw [if_pos h2] at hc
    fin_cases hc <;> decide
  rw [if_neg h2] at hc
  by_cases h3 : x.toNat = 8
  · rw [if_pos h3] at hc
    fin_cases hc <;> decide
  rw [if_neg h3] at hc
  by_cases h4 : x.toNat = 9
  · rw [if_pos h4] at hc
    fin_cases hc <;> decide
  rw [if_neg h4] at hc
  by_cases h5 : x.toNat = 10
  · rw [if_pos h5] at hc
    fin_cases hc <;> decide
  rw [if_neg h5] at hc
  by_cases h6 : x.toNat = 12
  · rw [if_pos h6] at hc
    fin_cases hc <;> decide
  rw [if_neg h6] at hc
  by_cases h7 : x.toNat = 13
  · rw [if_pos h7] at hc
    fin_cases hc <;> decide
  rw [if_neg h7] at hc
  by_cases h8 : x.toNat < 32
  · rw [if_pos h8] at hc
    exact uEscape_ascii _ c hc
  rw [if_neg h8] at hc
  by_cases h9 : x.toNat < 128
  · rw [if_pos h9] at hc
    rw [List.mem_singleton] at hc
    exact hc ▸ h9
  rw [if_neg h9] at hc
  by_cases h10 : x.toNat < 65536
  · rw [if_pos h10] at hc
    exact uEscape_ascii _ c hc
  rw [if_neg h10] at hc
  rcases List.mem_append.mp hc with h | h
  · exact uEscape_ascii _ c h
  · exact uEscape_ascii _ c h

theorem escList_ascii (l : List Char) : ∀ c ∈ escList l, c.toNat < 128 := by
  induction l with
  | nil => intro c hc; exact absurd hc (List.not_mem_nil c)
  | cons x l ih =>
    intro c hc
    rcases List.mem_append.mp hc with h | h
    · exact escapeChar_ascii x c h
    · exact ih c h

theorem dumpStr_ascii (s : String) : ∀ c ∈ dumpStr s, c.toNat < 128 := by
  intro c hc
  rcases List.mem_cons.mp hc with h | h
  · subst h; decide
  · rcases List.mem_append.mp h with h2 | h2
    · exact escList_ascii _ c h2
    · rw [List.mem_singleton] at h2
      subst h2; decide

theorem dumpInt_ascii (i : Int) : ∀ c ∈ dumpInt i, c.toNat < 128 := by
  intro c hc
  unfold dumpInt at hc
  have hdig : ∀ m, ∀ c ∈ natToDigits m, c.toNat < 128 := by
    intro m c hmem
    have := isDigitC_toNat (natToDigits_digits m c hmem)
    omega
  split at hc
  · rcases List.mem_cons.mp hc with h | h
    · subst h; decide
    · exact hdig _ c h
  · exact hdig _ c hc

theorem natToDigits_ascii (n : Nat) : ∀ c ∈ natToDigits n, c.toNat < 128 := by
  intro c hc
  have := isDigitC_toNat (natToDigits_digits n c hc)
  omega

theorem decDigits_digits (ds : List (Fin 10)) : ∀ c ∈ decDigits ds, isDigitC c = true := by
  intro c hc
  simp only [decDigits, List.mem_map] at hc
  obtain ⟨d, _, rfl⟩ := hc
  exact isDigitC_digitChar d.val d.isLt

theorem dumpExpPart_ascii (ex : Option (Bool × Nat)) :
    ∀ c ∈ dumpExpPart ex, c.toNat < 128 := by
  intro c hc
  cases ex with
  | none => exact absurd hc (List.not_mem_nil c)
  | some p =>
    obtain ⟨es, ep⟩ := p
    cases es with
    | false =>
      simp only [dumpExpPart, if_false, Bool.false_eq_true, List.nil_append,
        List.mem_cons] at hc
      rcases hc with h | h
      · subst h; decide
      · exact natToDigits_ascii ep c h
    | true =>
      simp only [dumpExpPart, if_true, List.cons_append, List.mem_cons,
        List.singleton_append] at hc
      rcases hc with h | h | h
      · subst h; decide
      · subst h; decide
      · exact natToDigits_ascii ep c h

theorem dumpDec_ascii (neg : Bool) (ip : Nat) (t : DecTail) :
    ∀ c ∈ dumpDec neg ip t, c.toNat < 128 := by
  intro c hc
  simp only [dumpDec, List.append_assoc, List.mem_append] at hc
  rcases hc with h | h | h
  · cases neg with
    | true =>
      simp only [if_true, List.mem_singleton] at h
      subst h; decide
    | false => simp at h
  · exact natToDigits_ascii ip c h
  · cases t with
    | frac f0 fr ex =>
      simp only [dumpDecTail, List.mem_cons] at h
      rcases h with h | h | h
      · subst h; decide
      · subst h
        have := digitChar_toNat f0.val f0.isLt
        omega
      · rcases List.mem_append.mp h with h2 | h2
        · have := isDigitC_toNat (decDigits_digits fr c h2)
          omega
        · exact dumpExpPart_ascii ex c h2
    | exp es ep => exact dumpExpPart_ascii (some (es, ep)) c h

theorem szV_pos (v : Json) : 1 ≤ szV v := by
  cases v <;> simp [szV]

theorem dump_ascii : ∀ fuel : Nat,
    (∀ v, szV v ≤ fuel → ∀ c ∈ dumpVal v, c.toNat < 128) ∧
      (∀ xs, szL xs ≤ fuel → ∀ c ∈ dumpArrItems xs, c.toNat < 128) ∧
      (∀ kvs, szO kvs ≤ fuel → ∀ c ∈ dumpObjItems kvs, c.toNat < 128) := by
  intro fuel
  induction fuel with
  | zero =>
    refine ⟨fun v hv => absurd hv (by have := szV_pos v; omega), fun xs hxs => ?_,
      fun kvs hkvs => ?_⟩
    · cases xs with
      | nil => intro c hc; exact absurd hc (List.not_mem_nil c)
      | cons v tl => exact absurd hxs (by have := szV_pos v; simp only [szL]; omega)
    · cases kvs with
      | nil => intro c hc; exact absurd hc (List.not_mem_nil c)
      | cons k v tl => exact absurd hkvs (by have := szV_pos v; simp only [szO]; omega)
  | succ f ih =>
    obtain ⟨ihV, ihL, ihO⟩ := ih
    refine ⟨?_, ?_, ?_⟩
    · intro v hv c hc
      cases v with
      | null =>
        rw [show dumpVal Json.null = ['n', 'u', 'l', 'l'] from rfl] at hc
        fin_cases hc <;> decide
      | bool b =>
        cases b with
        | true =>
          rw [show dumpVal (Json.bool true) = ['t', 'r', 'u', 'e'] from rfl] at hc
          fin_cases hc <;> decide
        | false =>
          rw [show dumpVal (Json.bool false) = ['f', 'a', 'l', 's', 'e'] from rfl] at hc
          fin_cases hc <;> decide
      | num i => exact dumpInt_ascii i c hc
      | dec neg ip t => exact dumpDec_ascii neg ip t c hc
      | inf b =>
        cases b with
        | false =>
          rw [show dumpVal (Json.inf false) =
            ['I', 'n', 'f', 'i', 'n', 'i', 't', 'y'] from rfl] at hc
          fin_cases hc <;> decide
        | true =>
          rw [show dumpVal (Json.inf true) =
            ['-', 'I', 'n', 'f', 'i', 'n', 'i', 't', 'y'] from rfl] at hc
          fin_cases hc <;> decide
      | nan =>
        rw [show dumpVal Json.nan = ['N', 'a', 'N'] from rfl] at hc
        fin_cases hc <;> decide
      | str s => exact dumpStr_ascii s c hc
      | arr xs =>
        cases xs with
        | nil =>
          rw [show dumpVal (Json.arr .nil) = ['[', ']'] from rfl] at hc
          fin_cases hc <;> decide
        | cons v2 tl =>
          rw [show dumpVal (Json.arr (.cons v2 tl)) =
            '[' :: (dumpArrItems (.cons v2 tl) ++ [']']) from rfl] at hc
          rcases List.mem_cons.mp hc with h | h
          · subst h; decide
          · rcases List.mem_append.mp h with h2 | h2
            · exact ihL _ (by simp only [szV] at hv; omega) c h2
            · rw [List.mem_singleton] at h2
              subst h2; decide
      | obj kvs =>
        cases kvs with
        | nil =>
          rw [show dumpVal (Json.obj .nil) = [lbrace, rbrace] from rfl] at hc
          fin_cases hc <;> decide
        | cons k v2 tl =>
          rw [show dumpVal (Json.obj (.cons k v2 tl)) =
            lbrace :: (dumpObjItems (.cons k v2 tl) ++ [rbrace]) from rfl] at hc
          rcases List.mem_cons.mp hc with h | h
          · subst h; decide
          · rcases List.mem_append.mp h with h2 | h2
            · exact ihO _ (by simp only [szV] at hv; omega) c h2
            · rw [List.mem_singleton] at h2
              subst h2; decide
    · intro xs hxs c hc
      cases xs with
      | nil => exact absurd hc (List.not_mem_nil c)
      | cons v tl =>
        cases tl with
        | nil =>
          rw [show dumpArrItems (.cons v .nil) = dumpVal v from rfl] at hc
          exact ihV v (by simp only [szL] at hxs; omega) c hc
        | cons w tl2 =>
          rw [show dumpArrItems (.cons v (.cons w tl2)) =
            dumpVal v ++ ',' :: dumpArrItems (.cons w tl2) from rfl] at hc
          rcases List.mem_append.mp hc with h | h
          · exact ihV v (by simp only [szL] at hxs; omega) c h
          · rcases List.mem_cons.mp h with h2 | h2
            · subst h2; decide
            · exact ihL _ (by simp only [szL] at hxs ⊢; omega) c h2
    · intro kvs hkvs c hc
      cases kvs with
      | nil => exact absurd hc (List.not_mem_nil c)
      | cons k v tl =>
        cases tl with
        | nil =>
          rw [show dumpObjItems (.cons k v .nil) = dumpStr k ++ ':' :: dumpVal v from rfl] at hc
          rcases List.mem_append.mp hc with h | h
          · exact dumpStr_ascii k c h
          · rcases List.mem_cons.mp h with h2 | h2
            · subst h2; decide
            · exact ihV v (by simp only [szO] at hkvs; omega) c h2
        | cons k2 w tl2 =>
          rw [show dumpObjItems (.cons k v (.cons k2 w tl2)) =
            (dumpStr k ++ ':' :: dumpVal v) ++ ',' :: dumpObjItems (.cons k2 w tl2)
              from rfl] at hc
          rcases List.mem_append.mp hc with h | h
          · rcases List.mem_append.mp h with h2 | h2
            · exact dumpStr_ascii k c h2
            · rcases List.mem_cons.mp h2 with h3 | h3
              · subst h3; decide
              · exact ihV v (by simp only [szO] at hkvs; omega) c h3
          · rcases List.mem_cons.mp h with h2 | h2
            · subst h2; decide
            · exact ihO _ (by simp only [szO] at hkvs ⊢; omega) c h2

/-! ## JSON string literal round trip -/

theorem hexVal_hexDigitChar (d : Nat) (h : d < 16) : hexVal (hexDigitChar d) = some d := by
  interval_cases d <;> rfl

theorem hexVal4_uEscape_digits (n : Nat) (h : n < 65536) :
    hexVal4 (hexDigitChar (n / 4096 % 16)) (hexDigitChar (n / 256 % 16))
      (hexDigitChar (n / 16 % 16)) (hexDigitChar (n % 16)) = some n := by
  unfold hexVal4
  rw [hexVal_hexDigitChar _ (by omega), hexVal_hexDigitChar _ (by omega),
    hexVal_hexDigitChar _ (by omega), hexVal_hexDigitChar _ (by omega)]
  show some (n / 4096 % 16 * 4096 + n / 256 % 16 * 256 + n / 16 % 16 * 16 + n % 16) = some n
  have hx : n / 4096 % 16 * 4096 + n / 256 % 16 * 256 + n / 16 % 16 * 16 + n % 16 = n := by
    omega
  rw [hx]

theorem char_not_surrogate (c : Char) : ¬(55296 ≤ c.toNat ∧ c.toNat ≤ 57343) := by
  have he : c.toNat = c.val.toNat := rfl
  rcases c.valid with h | h
  · intro hx; omega
  · intro hx
    obtain ⟨ha, hb⟩ := h
    omega

theorem char_toNat_lt (c : Char) : c.toNat < 1114112 := by
  have he : c.toNat = c.val.toNat := rfl
  rcases c.valid with h | h
  · omega
  · obtain ⟨ha, hb⟩ := h
    omega

theorem parseStrBody_uEscape_step (f : Nat) (d1 d2 d3 d4 : Char) (tail : List Char) :
    parseStrBody (f + 1) ('\\' :: 'u' :: d1 :: d2 :: d3 :: d4 :: tail) =
      (match hexVal4 d1 d2 d3 d4 with
       | none => none
       | some n =>
         if 55296 ≤ n ∧ n ≤ 56319 then
           match tail with
           | b1 :: b2 :: g1 :: g2 :: g3 :: g4 :: rest4 =>
             if b1 = '\\' ∧ b2 = 'u' then
               match hexVal4 g1 g2 g3 g4 with
               | none => none
               | some m =>
                 if 56320 ≤ m ∧ m ≤ 57343 then
                   (parseStrBody f rest4).map fun pr =>
                     (Char.ofNat ((n - 55296) * 1024 + (m - 56320) + 65536) :: pr.1, pr.2)
                 else (parseStrBody f tail).map fun pr => (Char.ofNat 65533 :: pr.1, pr.2)
             else (parseStrBody f tail).map fun pr => (Char.ofNat 65533 :: pr.1, pr.2)
           | _ => (parseStrBody f tail).map fun pr => (Char.ofNat 65533 :: pr.1, pr.2)
         else if 56320 ≤ n ∧ n ≤ 57343 then
           (parseStrBody f tail).map fun pr => (Char.ofNat 65533 :: pr.1, pr.2)
         else (parseStrBody f tail).map fun pr => (Char.ofNat n :: pr.1, pr.2)) := rfl

theorem parseStrBody_uEscape_val (f n : Nat) (hn : n < 65536)
    (hlow : ¬(55296 ≤ n ∧ n ≤ 57343)) (tail : List Char) :
    parseStrBody (f + 1) ('\\' :: 'u' :: hexDigitChar (n / 4096 % 16) ::
        hexDigitChar (n / 256 % 16) :: hexDigitChar (n / 16 % 16) ::
        hexDigitChar (n % 16) :: tail) =
      (parseStrBody f tail).map fun pr => (Char.ofNat n :: pr.1, pr.2) := by
  rw [parseStrBody_uEscape_step, hexVal4_uEscape_digits n hn]
  simp only [if_neg (show ¬(55296 ≤ n ∧ n ≤ 56319) by omega),
    if_neg (show ¬(56320 ≤ n ∧ n ≤ 57343) by omega)]

theorem parseStrBody_surrogate_pair (f n : Nat) (h1 : 65536 ≤ n) (h2 : n < 1114112)
    (tail : List Char) :
    parseStrBody (f + 1) (uEscape (55296 + (n - 65536) / 1024) ++
        (uEscape (56320 + (n - 65536) % 1024) ++ tail)) =
      (parseStrBody f tail).map fun pr => (Char.ofNat n :: pr.1, pr.2) := by
  rw [show uEscape (55296 + (n - 65536) / 1024) ++
      (uEscape (56320 + (n - 65536) % 1024) ++ tail) =
      '\\' :: 'u' :: hexDigitChar ((55296 + (n - 65536) / 1024) / 4096 % 16) ::
        hexDigitChar ((55296 + (n - 65536) / 1024) / 256 % 16) ::
        hexDigitChar ((55296 + (n - 65536) / 1024) / 16 % 16) ::
        hexDigitChar ((55296 + (n - 65536) / 1024) % 16) ::
        ('\\' :: 'u' :: hexDigitChar ((56320 + (n - 65536) % 1024) / 4096 % 16) ::
          hexDigitChar ((56320 + (n - 65536) % 1024) / 256 % 16) ::
          hexDigitChar ((56320 + (n - 65536) % 1024) / 16 % 16) ::
          hexDigitChar ((56320 + (n - 65536) % 1024) % 16) :: tail) from rfl]
  rw [parseStrBody_uEscape_step, hexVal4_uEscape_digits _ (by omega)]
  simp only [if_pos (show 55296 ≤ 55296 + (n - 65536) / 1024 ∧
    55296 + (n - 65536) / 1024 ≤ 56319 by omega), eq_self_iff_true, and_self, if_true]
  rw [hexVal4_uEscape_digits _ (by omega)]
  simp only [if_pos (show 56320 ≤ 56320 + (n - 65536) % 1024 ∧
    56320 + (n - 65536) % 1024 ≤ 57343 by omega)]
  have hval : (55296 + (n - 65536) / 1024 - 55296) * 1024 +
      (56320 + (n - 65536) % 1024 - 56320) + 65536 = n := by omega
  rw [hval]

theorem parseStrBody_escapeChar (f : Nat) (x : Char) (rest : List Char) :
    parseStrBody (f + 1) (escapeChar x ++ rest) =
      (parseStrBody f rest).map fun pr => (x :: pr.1, pr.2) := by
  by_cases h1 : x = '"'
  · subst h1; rfl
  by_cases h2 : x = '\\'
  · subst h2; rfl
  by_cases h3 : x.toNat = 8
  · have hx : x = Char.ofNat 8 := by rw [← Char.ofNat_toNat x, h3]
    subst hx; rfl
  by_cases h4 : x.toNat = 9
  · have hx : x = Char.ofNat 9 := by rw [← Char.ofNat_toNat x, h4]
    subst hx; rfl
  by_cases h5 : x.toNat = 10
  · have hx : x = Char.ofNat 10 := by rw [← Char.ofNat_toNat x, h5]
    subst hx; rfl
  by_cases h6 : x.toNat = 12
  · have hx : x = Char.ofNat 12 := by rw [← Char.ofNat_toNat x, h6]
    subst hx; rfl
  by_cases h7 : x.toNat = 13
  · have hx : x = Char.ofNat 13 := by rw [← Char.ofNat_toNat x, h7]
    subst hx; rfl
  by_cases h8 : x.toNat < 32
  · have hesc : escapeChar x = uEscape x.toNat := by
      simp only [escapeChar]
      rw [if_neg h1, if_neg h2, if_neg h3, if_neg h4, if_neg h5, if_neg h6, if_neg h7,
        if_pos h8]
    rw [hesc,
      show uEscape x.toNat ++ rest =
        '\\' :: 'u' :: hexDigitChar (x.toNat / 4096 % 16) :: hexDigitChar (x.toNat / 256 % 16) ::
          hexDigitChar (x.toNat / 16 % 16) :: hexDigitChar (x.toNat % 16) :: rest from rfl,
      parseStrBody_uEscape_val f x.toNat (by omega) (by omega) rest, Char.ofNat_toNat]
  by_cases h9 : x.toNat < 128
  · have hesc : escapeChar x = [x] := by
      simp only [escapeChar]
      rw [if_neg h1, if_neg h2, if_neg h3, if_neg h4, if_neg h5, if_neg h6, if_neg h7,
        if_neg h8, if_pos h9]
    rw [hesc]
    show (if x = '"' then some ([], rest)
      else if x = '\\' then
        match rest with
        | [] => none
        | e :: rest2 =>
          if e = 'u' then
            match rest2 with
            | h1 :: h2 :: h3 :: h4 :: rest3 =>
              match hexVal4 h1 h2 h3 h4 with
              | none => none
              | some n =>
                if 55296 ≤ n ∧ n ≤ 56319 then
                  match rest3 with
                  | b1 :: b2 :: g1 :: g2 :: g3 :: g4 :: rest4 =>
                    if b1 = '\\' ∧ b2 = 'u' then
                      match hexVal4 g1 g2 g3 g4 with
                      | none => none
                      | some m =>
                        if 56320 ≤ m ∧ m ≤ 57343 then
                          (parseStrBody f rest4).map fun pr =>
                            (Char.ofNat ((n - 55296) * 1024 + (m - 56320) + 65536) :: pr.1,
                              pr.2)
                        else (parseStrBody f rest3).map fun pr =>
                          (Char.ofNat 65533 :: pr.1, pr.2)
                    else (parseStrBody f rest3).map fun pr => (Char.ofNat 65533 :: pr.1, pr.2)
                  | _ => (parseStrBody f rest3).map fun pr => (Char.ofNat 65533 :: pr.1, pr.2)
                else if 56320 ≤ n ∧ n ≤ 57343 then
                  (parseStrBody f rest3).map fun pr => (Char.ofNat 65533 :: pr.1, pr.2)
                else (parseStrBody f rest3).map fun pr => (Char.ofNat n :: pr.1, pr.2)
            | _ => none
          else
            match unescapeSimple e with
            | some c2 => (parseStrBody f rest2).map fun pr => (c2 :: pr.1, pr.2)
            | none => none
      else if x.toNat < 32 then none
      else (parseStrBody f rest).map fun pr => (x :: pr.1, pr.2)) =
      (parseStrBody f rest).map fun pr => (x :: pr.1, pr.2)
    rw [if_neg h1, if_neg h2, if_neg h8]
  by_cases h10 : x.toNat < 65536
  · have hesc : escapeChar x = uEscape x.toNat := by
      simp only [escapeChar]
      rw [if_neg h1, if_neg h2, if_neg h3, if_neg h4, if_neg h5, if_neg h6, if_neg h7,
        if_neg h8, if_neg h9, if_pos h10]
    rw [hesc,
      show uEscape x.toNat ++ rest =
        '\\' :: 'u' :: hexDigitChar (x.toNat / 4096 % 16) :: hexDigitChar (x.toNat / 256 % 16) ::
          hexDigitChar (x.toNat / 16 % 16) :: hexDigitChar (x.toNat % 16) :: rest from rfl,
      parseStrBody_uEscape_val f x.toNat h10 (char_not_surrogate x) rest, Char.ofNat_toNat]
  · have hesc : escapeChar x =
        uEscape (55296 + (x.toNat - 65536) / 1024) ++
          uEscape (56320 + (x.toNat - 65536) % 1024) := by
      simp only [escapeChar]
      rw [if_neg h1, if_neg h2, if_neg h3, if_neg h4, if_neg h5, if_neg h6, if_neg h7,
        if_neg h8, if_neg h9, if_neg h10]
    rw [hesc, List.append_assoc,
      parseStrBody_surrogate_pair f x.toNat (by omega) (char_toNat_lt x) rest,
      Char.ofNat_toNat]

theorem escapeChar_length_pos (x : Char) : 0 < (escapeChar x).length := by
  simp only [escapeChar]
  by_cases h1 : x = '"'
  · rw [if_pos h1]; simp
  rw [if_neg h1]
  by_cases h2 : x = '\\'
  · rw [if_pos h2]; simp
  rw [if_neg h2]
  by_cases h3 : x.toNat = 8
  · rw [if_pos h3]; simp
  rw [if_neg h3]
  by_cases h4 : x.toNat = 9
  · rw [if_pos h4]; simp
  rw [if_neg h4]
  by_cases h5 : x.toNat = 10
  · rw [if_pos h5]; simp
  rw [if_neg h5]
  by_cases h6 : x.toNat = 12
  · rw [if_pos h6]; simp
  rw [if_neg h6]
  by_cases h7 : x.toNat = 13
  · rw [if_pos h7]; simp
  rw [if_neg h7]
  by_cases h8 : x.toNat < 32
  · rw [if_pos h8]; simp [uEscape]
  rw [if_neg h8]
  by_cases h9 : x.toNat < 128
  · rw [if_pos h9]; simp
  rw [if_neg h9]
  by_cases h10 : x.toNat < 65536
  · rw [if_pos h10]; simp [uEscape]
  rw [if_neg h10]
  simp [uEscape]

theorem escList_length_ge (l : List Char) : l.length ≤ (escList l).length := by
  induction l with
  | nil => simp [escList]
  | cons x l ih =>
    rw [show escList (x :: l) = escapeChar x ++ escList l from rfl]
    simp only [List.length_append, List.length_cons]
    have := escapeChar_length_pos x
    omega

theorem parseStrBody_escList : ∀ (l : List Char) (f : Nat) (rest : List Char), l.length < f →
    parseStrBody f (escList l ++ '"' :: rest) = some (l, rest) := by
  intro l
  induction l with
  | nil =>
    intro f rest hf
    cases f with
    | zero => exact absurd hf (by omega)
    | succ f => rfl
  | cons x l ih =>
    intro f rest hf
    cases f with
    | zero => exact absurd hf (by omega)
    | succ f =>
      rw [show escList (x :: l) = escapeChar x ++ escList l from rfl, List.append_assoc,
        parseStrBody_escapeChar, ih f rest (by simp at hf; omega)]
      rfl

theorem parseStrLit_dumpStr (s : String) (rest : List Char) :
    parseStrLit (dumpStr s ++ rest) = some (s, rest) := by
  rw [show dumpStr s ++ rest = '"' :: (escList s.toList ++ '"' :: rest) from by
    simp [dumpStr]]
  show (parseStrBody ((escList s.toList ++ '"' :: rest).length + 1)
      (escList s.toList ++ '"' :: rest)).map (fun pr => (String.mk pr.1, pr.2)) =
    some (s, rest)
  rw [parseStrBody_escList s.toList _ rest (by
    have := escList_length_ge s.toList
    simp only [List.length_append, List.length_cons]
    omega)]
  rfl

/-! ## JSON value round trip: `json.loads` of `json.dumps` -/

theorem skipWs_cons_false {c : Char} (h : isWsC c = false) (l : List Char) :
    skipWs (c :: l) = c :: l := by simp [skipWs, h]

theorem isDigitC_not_special {c : Char} (h : isDigitC c = true) :
    isWsC c = false ∧ ¬(c = '"') ∧ ¬(c = ']') := by
  have hb := isDigitC_toNat h
  have h1 : ¬(c = ' ') := fun he => by subst he; exact absurd hb (by decide)
  have h2 : ¬(c = '\t') := fun he => by subst he; exact absurd hb (by decide)
  have h3 : ¬(c = '\n') := fun he => by subst he; exact absurd hb (by decide)
  have h4 : ¬(c = '\r') := fun he => by subst he; exact absurd hb (by decide)
  refine ⟨by simp [isWsC, h1, h2, h3, h4], ?_, ?_⟩
  · exact fun he => by subst he; exact absurd hb (by decide)
  · exact fun he => by subst he; exact absurd hb (by decide)

theorem dumpInt_head (i : Int) : ∃ c cs, dumpInt i = c :: cs ∧ isWsC c = false ∧
    ¬(c = '"') ∧ ¬(c = ']') ∧ (c = '-' ∨ isDigitC c = true) := by
  unfold dumpInt
  by_cases hneg : i < 0
  · rw [if_pos hneg]
    exact ⟨'-', _, rfl, by decide, by decide, by decide, Or.inl rfl⟩
  · rw [if_neg hneg]
    obtain ⟨c, cs, hc⟩ : ∃ c cs, natToDigits i.toNat = c :: cs := by
      cases hcn : natToDigits i.toNat with
      | nil => exact absurd hcn (natToDigits_ne_nil _)
      | cons c cs => exact ⟨c, cs, rfl⟩
    have hdig : isDigitC c = true := natToDigits_digits _ c (by rw [hc]; simp)
    obtain ⟨hws, hq, hbr⟩ := isDigitC_not_special hdig
    exact ⟨c, cs, hc, hws, hq, hbr, Or.inr hdig⟩

theorem dumpDec_head (neg : Bool) (ip : Nat) (t : DecTail) :
    ∃ c cs, dumpDec neg ip t = c :: cs ∧ isWsC c = false ∧
      ¬(c = '"') ∧ ¬(c = ']') ∧ (c = '-' ∨ isDigitC c = true) := by
  cases neg with
  | true => exact ⟨'-', _, rfl, by decide, by decide, by decide, Or.inl rfl⟩
  | false =>
    obtain ⟨c, cs, hc⟩ : ∃ c cs, natToDigits ip = c :: cs := by
      cases hcn : natToDigits ip with
      | nil => exact absurd hcn (natToDigits_ne_nil _)
      | cons c cs => exact ⟨c, cs, rfl⟩
    have hdig : isDigitC c = true := natToDigits_digits _ c (by rw [hc]; simp)
    obtain ⟨hws, hq, hbr⟩ := isDigitC_not_special hdig
    refine ⟨c, cs ++ dumpDecTail t, ?_, hws, hq, hbr, Or.inr hdig⟩
    show dumpDec false ip t = c :: (cs ++ dumpDecTail t)
    rw [show dumpDec false ip t = natToDigits ip ++ dumpDecTail t from by simp [dumpDec]]
    rw [hc, List.cons_append]

theorem numStop_facts {c : Char} (h : numStop c = true) :
    isDigitC c = false ∧ ¬(c = '.') ∧ ¬(c = 'e') ∧ ¬(c = 'E') := by
  unfold numStop at h
  simp only [Bool.and_eq_true, Bool.not_eq_true', decide_eq_false_iff_not] at h
  tauto

theorem isPrefixOf_head_ne {x y : Char} (h : ¬(x = y)) (xs ys : List Char) :
    List.isPrefixOf (x :: xs) (y :: ys) = false := by
  simp [List.isPrefixOf, h]

theorem digitFin_digitChar (d : Fin 10) :
    (if h : (digitChar d.val).toNat - 48 < 10 then (⟨(digitChar d.val).toNat - 48, h⟩ : Fin 10)
     else 0) = d := by
  have htn : (digitChar d.val).toNat = 48 + d.val := digitChar_toNat d.val d.isLt
  rw [dif_pos (show (digitChar d.val).toNat - 48 < 10 from by
    rw [htn]
    omega)]
  apply Fin.ext
  simp [htn]

theorem digitFins_decDigits (ds : List (Fin 10)) : digitFins (decDigits ds) = ds := by
  induction ds with
  | nil => rfl
  | cons d tl ih =>
    show digitFins (digitChar d.val :: decDigits tl) = d :: tl
    simp only [digitFins]
    rw [ih, digitFin_digitChar]

theorem parseFrac_none (cs : List Char)
    (h : ∀ c, cs.head? = some c → ¬(c = '.')) : parseFrac cs = none := by
  match cs with
  | [] => rfl
  | [c] => rfl
  | c :: c2 :: rest =>
    have hcd := h c rfl
    simp only [parseFrac, if_neg hcd]

theorem parseExp_none (cs : List Char)
    (h : ∀ c, cs.head? = some c → ¬(c = 'e') ∧ ¬(c = 'E')) : parseExp cs = none := by
  match cs with
  | [] => rfl
  | c :: rest =>
    have hc := h c rfl
    simp only [parseExp, if_neg (show ¬(c = 'e' ∨ c = 'E') from by
      rintro (h1 | h2)
      · exact hc.1 h1
      · exact hc.2 h2)]

theorem parseFrac_dump (f0 : Fin 10) (fr : List (Fin 10)) (rest : List Char)
    (hrest : ∀ c, rest.head? = some c → isDigitC c = false) :
    parseFrac ('.' :: digitChar f0.val :: (decDigits fr ++ rest)) = some (f0, fr, rest) := by
  have htn : (digitChar f0.val).toNat = 48 + f0.val := digitChar_toNat f0.val f0.isLt
  have htw : (decDigits fr ++ rest).takeWhile isDigitC = decDigits fr :=
    takeWhile_append_all isDigitC (decDigits fr) rest (decDigits_digits fr) hrest
  simp only [parseFrac, eq_self_iff_true, if_true]
  rw [dif_pos (show 48 ≤ (digitChar f0.val).toNat ∧ (digitChar f0.val).toNat ≤ 57 from by
    rw [htn]
    omega)]
  rw [htw, digitFins_decDigits, List.drop_left]
  simp only [Option.some.injEq, Prod.mk.injEq, and_true]
  apply Fin.ext
  simp [htn]

theorem parseExp_dump (es : Bool) (ep : Nat) (rest : List Char)
    (hrest : ∀ c, rest.head? = some c → isDigitC c = false) :
    parseExp (dumpExpPart (some (es, ep)) ++ rest) = some (es, ep, rest) := by
  cases es with
  | false =>
    obtain ⟨c, cs, hc⟩ : ∃ c cs, natToDigits ep = c :: cs := by
      cases hcn : natToDigits ep with
      | nil => exact absurd hcn (natToDigits_ne_nil _)
      | cons c cs => exact ⟨c, cs, rfl⟩
    have hdig : isDigitC c = true := natToDigits_digits _ c (by rw [hc]; simp)
    have hnm : ¬(c = '-') := fun he => by rw [he] at hdig; exact absurd hdig (by decide)
    have hnp : ¬(c = '+') := fun he => by rw [he] at hdig; exact absurd hdig (by decide)
    rw [show dumpExpPart (some (false, ep)) ++ rest = 'e' :: (natToDigits ep ++ rest) from by
      simp [dumpExpPart]]
    rw [hc, List.cons_append]
    simp only [parseExp, if_pos (Or.inl rfl), if_neg hnm, if_neg hnp]
    rw [← List.cons_append, ← hc, parseDigits_natToDigits ep rest hrest]
    rfl
  | true =>
    rw [show dumpExpPart (some (true, ep)) ++ rest = 'e' :: '-' :: (natToDigits ep ++ rest)
      from by simp [dumpExpPart]]
    simp only [parseExp, if_pos (Or.inl rfl), if_pos rfl]
    rw [parseDigits_natToDigits ep rest hrest]
    rfl

theorem dumpDecTail_head (t : DecTail) :
    ∃ c cs, dumpDecTail t = c :: cs ∧ (c = '.' ∨ c = 'e') := by
  cases t with
  | frac f0 fr ex => exact ⟨'.', _, rfl, Or.inl rfl⟩
  | exp es ep => exact ⟨'e', _, rfl, Or.inr rfl⟩

theorem parseNumLit_dumpInt (i : Int) (rest : List Char)
    (hrest : ∀ c, rest.head? = some c → numStop c = true) :
    parseNumLit (dumpInt i ++ rest) = some (.num i, rest) := by
  have hrd : ∀ c, rest.head? = some c → isDigitC c = false :=
    fun c hc => (numStop_facts (hrest c hc)).1
  have hfr : parseFrac rest = none := parseFrac_none rest
    (fun c hc => (numStop_facts (hrest c hc)).2.1)
  have hex : parseExp rest = none := parseExp_none rest
    (fun c hc => ⟨(numStop_facts (hrest c hc)).2.2.1, (numStop_facts (hrest c hc)).2.2.2⟩)
  unfold dumpInt
  by_cases hneg : i < 0
  · rw [if_pos hneg]
    obtain ⟨c, cs, hc⟩ : ∃ c cs, natToDigits i.natAbs = c :: cs := by
      cases hx : natToDigits i.natAbs with
      | nil => exact absurd hx (natToDigits_ne_nil _)
      | cons c cs => exact ⟨c, cs, rfl⟩
    have hdig : isDigitC c = true := natToDigits_digits _ c (by rw [hc]; simp)
    have hni : ¬(c = 'I') := fun he => by rw [he] at hdig; exact absurd hdig (by decide)
    rw [List.cons_append]
    simp only [parseNumLit, if_pos rfl]
    rw [show List.isPrefixOf "Infinity".toList (natToDigits i.natAbs ++ rest) = false from by
      rw [hc, List.cons_append]
      exact isPrefixOf_head_ne (fun he => hni he.symm) _ _]
    simp only [Bool.false_eq_true, if_false]
    rw [parseNatNum_natToDigits _ _ hrd]
    show some (numFromParts true i.natAbs rest) = some (Json.num i, rest)
    unfold numFromParts
    rw [hfr, hex]
    show some (Json.num (-(i.natAbs : Int)), rest) = some (Json.num i, rest)
    have hval : -(i.natAbs : Int) = i := by omega
    rw [hval]
  · rw [if_neg hneg]
    obtain ⟨c, cs, hc⟩ : ∃ c cs, natToDigits i.toNat = c :: cs := by
      cases hx : natToDigits i.toNat with
      | nil => exact absurd hx (natToDigits_ne_nil _)
      | cons c cs => exact ⟨c, cs, rfl⟩
    have hdig : isDigitC c = true := natToDigits_digits _ c (by rw [hc]; simp)
    have hnm : ¬(c = '-') := fun he => by rw [he] at hdig; exact absurd hdig (by decide)
    rw [hc, List.cons_append]
    simp only [parseNumLit, if_neg hnm]
    rw [← List.cons_append, ← hc, parseNatNum_natToDigits _ _ hrd]
    show some (numFromParts false i.toNat rest) = some (Json.num i, rest)
    unfold numFromParts
    rw [hfr, hex]
    show some (Json.num ((i.toNat : Int)), rest) = some (Json.num i, rest)
    have hval : ((i.toNat : Int)) = i := by omega
    rw [hval]

theorem numFromParts_dumpDecTail (neg : Bool) (ip : Nat) (t : DecTail) (rest : List Char)
    (hrest : ∀ c, rest.head? = some c → numStop c = true) :
    numFromParts neg ip (dumpDecTail t ++ rest) = (.dec neg ip t, rest) := by
  have hrd : ∀ c, rest.head? = some c → isDigitC c = false :=
    fun c hc => (numStop_facts (hrest c hc)).1
  cases t with
  | frac f0 fr ex =>
    have hfr : parseFrac (dumpDecTail (.frac f0 fr ex) ++ rest) =
        some (f0, fr, dumpExpPart ex ++ rest) := by
      rw [show dumpDecTail (.frac f0 fr ex) ++ rest =
        '.' :: digitChar f0.val :: (decDigits fr ++ (dumpExpPart ex ++ rest)) from by
        simp [dumpDecTail, List.append_assoc]]
      apply parseFrac_dump
      intro c hcm
      cases ex with
      | none => exact hrd c (by simpa [dumpExpPart] using hcm)
      | some p =>
        obtain ⟨es, ep⟩ := p
        rw [show dumpExpPart (some (es, ep)) ++ rest =
          'e' :: (((if es then ['-'] else []) ++ natToDigits ep) ++ rest) from by
          simp [dumpExpPart]] at hcm
        simp only [List.head?_cons, Option.some.injEq] at hcm
        subst hcm
        rfl
    unfold numFromParts
    rw [hfr]
    cases ex with
    | none =>
      rw [show dumpExpPart none ++ rest = rest from by simp [dumpExpPart]]
      show (match parseExp rest with
        | some (es, ep, rest4) => (Json.dec neg ip (DecTail.frac f0 fr (some (es, ep))), rest4)
        | none => (Json.dec neg ip (DecTail.frac f0 fr none), rest)) =
        (Json.dec neg ip (DecTail.frac f0 fr none), rest)
      rw [parseExp_none rest (fun c hc =>
        ⟨(numStop_facts (hrest c hc)).2.2.1, (numStop_facts (hrest c hc)).2.2.2⟩)]
    | some p =>
      obtain ⟨es, ep⟩ := p
      show (match parseExp (dumpExpPart (some (es, ep)) ++ rest) with
        | some (es2, ep2, rest4) =>
          (Json.dec neg ip (DecTail.frac f0 fr (some (es2, ep2))), rest4)
        | none => (Json.dec neg ip (DecTail.frac f0 fr none),
            dumpExpPart (some (es, ep)) ++ rest)) =
        (Json.dec neg ip (DecTail.frac f0 fr (some (es, ep))), rest)
      rw [parseExp_dump es ep rest hrd]
  | exp es ep =>
    unfold numFromParts
    rw [show dumpDecTail (.exp es ep) ++ rest = dumpExpPart (some (es, ep)) ++ rest from rfl]
    rw [parseFrac_none _ (by
      intro c hcm
      rw [show dumpExpPart (some (es, ep)) ++ rest =
        'e' :: (((if es then ['-'] else []) ++ natToDigits ep) ++ rest) from by
        simp [dumpExpPart]] at hcm
      simp only [List.head?_cons, Option.some.injEq] at hcm
      subst hcm
      decide)]
    rw [parseExp_dump es ep rest hrd]

theorem parseNumLit_dumpDec (neg : Bool) (ip : Nat) (t : DecTail) (rest : List Char)
    (hrest : ∀ c, rest.head? = some c → numStop c = true) :
    parseNumLit (dumpDec neg ip t ++ rest) = some (.dec neg ip t, rest) := by
  obtain ⟨tc, tcs, htc, htcor⟩ := dumpDecTail_head t
  have htl_head : ∀ c, (dumpDecTail t ++ rest).head? = some c → isDigitC c = false := by
    intro c hcm
    rw [htc, List.cons_append] at hcm
    simp only [List.head?_cons, Option.some.injEq] at hcm
    subst hcm
    rcases htcor with h | h <;> (subst h; rfl)
  have hnat : parseNatNum (natToDigits ip ++ (dumpDecTail t ++ rest)) =
      some (ip, dumpDecTail t ++ rest) := parseNatNum_natToDigits ip _ htl_head
  have hparts := numFromParts_dumpDecTail neg ip t rest hrest
  obtain ⟨c, cs, hc⟩ : ∃ c cs, natToDigits ip = c :: cs := by
    cases hx : natToDigits ip with
    | nil => exact absurd hx (natToDigits_ne_nil _)
    | cons c cs => exact ⟨c, cs, rfl⟩
  have hdig : isDigitC c = true := natToDigits_digits _ c (by rw [hc]; simp)
  have hni : ¬(c = 'I') := fun he => by rw [he] at hdig; exact absurd hdig (by decide)
  have hnm : ¬(c = '-') := fun he => by rw [he] at hdig; exact absurd hdig (by decide)
  cases neg with
  | true =>
    rw [show dumpDec true ip t ++ rest =
      '-' :: (natToDigits ip ++ (dumpDecTail t ++ rest)) from by
      simp [dumpDec, List.append_assoc]]
    simp only [parseNumLit, if_pos rfl]
    rw [show List.isPrefixOf "Infinity".toList (natToDigits ip ++ (dumpDecTail t ++ rest)) =
        false from by
      rw [hc, List.cons_append]
      exact isPrefixOf_head_ne (fun he => hni he.symm) _ _]
    simp only [Bool.false_eq_true, if_false]
    rw [hnat]
    show some (numFromParts true ip (dumpDecTail t ++ rest)) = some (.dec true ip t, rest)
    rw [hparts]
  | false =>
    rw [show dumpDec false ip t ++ rest =
      natToDigits ip ++ (dumpDecTail t ++ rest) from by
      simp [dumpDec, List.append_assoc]]
    rw [hc, List.cons_append]
    simp only [parseNumLit, if_neg hnm]
    rw [← List.cons_append, ← hc, hnat]
    show some (numFromParts false ip (dumpDecTail t ++ rest)) = some (.dec false ip t, rest)
    rw [hparts]

theorem dumpVal_head (v : Json) :
    ∃ c cs, dumpVal v = c :: cs ∧ isWsC c = false ∧ ¬(c = ']') := by
  cases v with
  | null => exact ⟨'n', _, rfl, by decide, by decide⟩
  | bool b =>
    cases b with
    | false => exact ⟨'f', _, rfl, by decide, by decide⟩
    | true => exact ⟨'t', _, rfl, by decide, by decide⟩
  | num i =>
    obtain ⟨c, cs, h, hws, _, hbr, _⟩ := dumpInt_head i
    exact ⟨c, cs, h, hws, hbr⟩
  | dec neg ip t =>
    obtain ⟨c, cs, h, hws, _, hbr, _⟩ := dumpDec_head neg ip t
    exact ⟨c, cs, h, hws, hbr⟩
  | inf b =>
    cases b with
    | false => exact ⟨'I', _, rfl, by decide, by decide⟩
    | true => exact ⟨'-', _, rfl, by decide, by decide⟩
  | nan => exact ⟨'N', _, rfl, by decide, by decide⟩
  | str s => exact ⟨'"', _, rfl, by decide, by decide⟩
  | arr xs =>
    cases xs with
    | nil => exact ⟨'[', _, rfl, by decide, by decide⟩
    | cons w tl => exact ⟨'[', _, rfl, by decide, by decide⟩
  | obj kvs =>
    cases kvs with
    | nil => exact ⟨lbrace, _, rfl, by decide, by decide⟩
    | cons k w tl => exact ⟨lbrace, _, rfl, by decide, by decide⟩

theorem dumpArrItems_head (w : Json) (tl : JsonList) :
    ∃ c cs, dumpArrItems (.cons w tl) = c :: cs ∧ isWsC c = false ∧ ¬(c = ']') := by
  obtain ⟨c, cs, h, hws, hbr⟩ := dumpVal_head w
  cases tl with
  | nil =>
    exact ⟨c, cs, by rw [show dumpArrItems (.cons w .nil) = dumpVal w from rfl, h], hws, hbr⟩
  | cons w2 tl2 =>
    refine ⟨c, cs ++ ',' :: dumpArrItems (.cons w2 tl2), ?_, hws, hbr⟩
    rw [show dumpArrItems (.cons w (.cons w2 tl2)) =
      dumpVal w ++ ',' :: dumpArrItems (.cons w2 tl2) from rfl, h, List.cons_append]

theorem dumpObjItems_shape (k : String) (v : Json) (tl : JsonObjList) :
    ∃ cs, dumpObjItems (.cons k v tl) = '"' :: cs := by
  cases tl with
  | nil => exact ⟨_, rfl⟩
  | cons k2 w tl2 => exact ⟨_, rfl⟩

theorem skipWs_dumpStr (k : String) (X : List Char) :
    skipWs (dumpStr k ++ X) = dumpStr k ++ X :=
  skipWs_cons_false (by decide) _

theorem parse_dump : ∀ fuel : Nat,
    (∀ v rest, szV v ≤ fuel → (∀ c, rest.head? = some c → numStop c = true) →
      parseVal fuel (dumpVal v ++ rest) = some (v, rest)) ∧
    (∀ xs rest, szL xs ≤ fuel → xs ≠ JsonList.nil →
      parseArrItems fuel (dumpArrItems xs ++ ']' :: rest) = some (xs, rest)) ∧
    (∀ kvs rest, szO kvs ≤ fuel → kvs ≠ JsonObjList.nil →
      parseObjItems fuel (dumpObjItems kvs ++ rbrace :: rest) = some (kvs, rest)) := by
  intro fuel
  induction fuel with
  | zero =>
    refine ⟨fun v rest hv _ => absurd hv (by have := szV_pos v; omega),
      fun xs rest hxs hne => ?_, fun kvs rest hkvs hne => ?_⟩
    · cases xs with
      | nil => exact absurd rfl hne
      | cons v tl => exact absurd hxs (by have := szV_pos v; simp only [szL]; omega)
    · cases kvs with
      | nil => exact absurd rfl hne
      | cons k v tl => exact absurd hkvs (by have := szV_pos v; simp only [szO]; omega)
  | succ f ih =>
    obtain ⟨ihV, ihL, ihO⟩ := ih
    refine ⟨?_, ?_, ?_⟩
    · intro v rest hsz hrest
      cases v with
      | null =>
        show parseVal (f + 1) ('n' :: 'u' :: 'l' :: 'l' :: rest) = some (Json.null, rest)
        simp [parseVal, skipWs, isWsC, isDigitC, lbrace, List.isPrefixOf]
      | bool b =>
        cases b with
        | true =>
          show parseVal (f + 1) ('t' :: 'r' :: 'u' :: 'e' :: rest) = some (Json.bool true, rest)
          simp [parseVal, skipWs, isWsC, isDigitC, lbrace, List.isPrefixOf]
        | false =>
          show parseVal (f + 1) ('f' :: 'a' :: 'l' :: 's' :: 'e' :: rest) =
            some (Json.bool false, rest)
          simp [parseVal, skipWs, isWsC, isDigitC, lbrace, List.isPrefixOf]
      | num i =>
        obtain ⟨c, cs, hie, hws, hq, _, hd⟩ := dumpInt_head i
        rw [show dumpVal (Json.num i) = dumpInt i from rfl, hie, List.cons_append]
        rw [parseVal]
        rw [skipWs_cons_false hws]
        simp only []
        rw [if_neg hq, if_pos (show (c = '-' || isDigitC c) = true by
          rcases hd with h | h
          · simp [h]
          · simp [h])]
        rw [← List.cons_append, ← hie, parseNumLit_dumpInt i rest hrest]
      | dec neg ip t =>
        obtain ⟨c, cs, hie, hws, hq, _, hd⟩ := dumpDec_head neg ip t
        rw [show dumpVal (Json.dec neg ip t) = dumpDec neg ip t from rfl, hie,
          List.cons_append]
        rw [parseVal]
        rw [skipWs_cons_false hws]
        simp only []
        rw [if_neg hq, if_pos (show (c = '-' || isDigitC c) = true by
          rcases hd with h | h
          · simp [h]
          · simp [h])]
        rw [← List.cons_append, ← hie, parseNumLit_dumpDec neg ip t rest hrest]
      | inf b =>
        cases b with
        | false =>
          show parseVal (f + 1)
              ('I' :: 'n' :: 'f' :: 'i' :: 'n' :: 'i' :: 't' :: 'y' :: rest) =
            some (Json.inf false, rest)
          simp [parseVal, skipWs, isWsC, isDigitC, lbrace, List.isPrefixOf]
        | true =>
          show parseVal (f + 1)
              ('-' :: 'I' :: 'n' :: 'f' :: 'i' :: 'n' :: 'i' :: 't' :: 'y' :: rest) =
            some (Json.inf true, rest)
          simp [parseVal, parseNumLit, skipWs, isWsC, isDigitC, lbrace, List.isPrefixOf]
      | nan =>
        show parseVal (f + 1) ('N' :: 'a' :: 'N' :: rest) = some (Json.nan, rest)
        simp [parseVal, skipWs, isWsC, isDigitC, lbrace, List.isPrefixOf]
      | str s =>
        rw [show dumpVal (Json.str s) ++ rest = '"' :: (escList s.toList ++ '"' :: rest) from by
          simp [dumpVal, dumpStr]]
        show (parseStrBody ((escList s.toList ++ '"' :: rest).length + 1)
            (escList s.toList ++ '"' :: rest)).map (fun pr => (Json.str (String.mk pr.1), pr.2)) =
          some (Json.str s, rest)
        rw [parseStrBody_escList s.toList _ rest (by
          have := escList_length_ge s.toList
          simp only [List.length_append, List.length_cons]
          omega)]
        rfl
      | arr xs =>
        cases xs with
        | nil =>
          show parseVal (f + 1) ('[' :: ']' :: rest) = some (Json.arr .nil, rest)
          rfl
        | cons w tl =>
          rw [show dumpVal (Json.arr (.cons w tl)) ++ rest =
            '[' :: (dumpArrItems (.cons w tl) ++ ']' :: rest) from by simp [dumpVal]]
          show (match skipWs (dumpArrItems (.cons w tl) ++ ']' :: rest) with
            | [] => none
            | c2 :: rest2 =>
              if c2 = ']' then some (Json.arr JsonList.nil, rest2)
              else
                match parseArrItems f (c2 :: rest2) with
                | some (xs, r) => some (Json.arr xs, r)
                | none => none) = some (Json.arr (JsonList.cons w tl), rest)
          obtain ⟨c, cs, hhd, hws, hnb⟩ := dumpArrItems_head w tl
          rw [hhd, List.cons_append, skipWs_cons_false hws]
          show (if c = ']' then some (Json.arr JsonList.nil, cs ++ ']' :: rest)
            else
              match parseArrItems f (c :: (cs ++ ']' :: rest)) with
              | some (xs, r) => some (Json.arr xs, r)
              | none => none) = some (Json.arr (JsonList.cons w tl), rest)
          rw [if_neg hnb, ← List.cons_append, ← hhd]
          rw [ihL (.cons w tl) rest (by simp only [szV] at hsz; omega) (by simp)]
      | obj kvs =>
        cases kvs with
        | nil =>
          show parseVal (f + 1) (lbrace :: rbrace :: rest) = some (Json.obj .nil, rest)
          rfl
        | cons k v2 tl =>
          rw [show dumpVal (Json.obj (.cons k v2 tl)) ++ rest =
            lbrace :: (dumpObjItems (.cons k v2 tl) ++ rbrace :: rest) from by simp [dumpVal]]
          show (match skipWs (dumpObjItems (.cons k v2 tl) ++ rbrace :: rest) with
            | [] => none
            | c2 :: rest2 =>
              if c2 = rbrace then some (Json.obj JsonObjList.nil, rest2)
              else
                match parseObjItems f (c2 :: rest2) with
                | some (kvs, r) => some (Json.obj kvs, r)
                | none => none) = some (Json.obj (JsonObjList.cons k v2 tl), rest)
          obtain ⟨cs2, hsh⟩ := dumpObjItems_shape k v2 tl
          rw [hsh, List.cons_append, skipWs_cons_false (by decide)]
          show (if ('"' : Char) = rbrace then
              some (Json.obj JsonObjList.nil, cs2 ++ rbrace :: rest)
            else
              match parseObjItems f ('"' :: (cs2 ++ rbrace :: rest)) with
              | some (kvs, r) => some (Json.obj kvs, r)
              | none => none) = some (Json.obj (JsonObjList.cons k v2 tl), rest)
          rw [if_neg (show ¬(('"' : Char) = rbrace) by decide), ← List.cons_append, ← hsh]
          rw [ihO (.cons k v2 tl) rest (by simp only [szV] at hsz; omega) (by simp)]
    · intro xs rest hsz hne
      cases xs with
      | nil => exact absurd rfl hne
      | cons v tl =>
        cases tl with
        | nil =>
          show parseArrItems (f + 1) (dumpVal v ++ ']' :: rest) =
            some (JsonList.cons v .nil, rest)
          show (match parseVal f (dumpVal v ++ ']' :: rest) with
            | none => none
            | some (v, rest) =>
              match skipWs rest with
              | [] => none
              | c :: rest2 =>
                if c = ',' then
                  match parseArrItems f rest2 with
                  | some (xs, r) => some (JsonList.cons v xs, r)
                  | none => none
                else if c = ']' then some (JsonList.cons v JsonList.nil, rest2)
                else none) = some (JsonList.cons v JsonList.nil, rest)
          rw [ihV v (']' :: rest) (by simp only [szL] at hsz; omega)
            (fun c hc => by simp at hc; subst hc; rfl)]
          rfl
        | cons w tl2 =>
          rw [show dumpArrItems (.cons v (.cons w tl2)) ++ ']' :: rest =
            dumpVal v ++ ',' :: (dumpArrItems (.cons w tl2) ++ ']' :: rest) from by
            simp [dumpArrItems]]
          show (match parseVal f
              (dumpVal v ++ ',' :: (dumpArrItems (.cons w tl2) ++ ']' :: rest)) with
            | none => none
            | some (v, rest) =>
              match skipWs rest with
              | [] => none
              | c :: rest2 =>
                if c = ',' then
                  match parseArrItems f rest2 with
                  | some (xs, r) => some (JsonList.cons v xs, r)
                  | none => none
                else if c = ']' then some (JsonList.cons v JsonList.nil, rest2)
                else none) = some (JsonList.cons v (JsonList.cons w tl2), rest)
          rw [ihV v _ (by simp only [szL] at hsz; omega)
            (fun c hc => by simp at hc; subst hc; rfl)]
          show (match parseArrItems f (dumpArrItems (.cons w tl2) ++ ']' :: rest) with
            | some (xs, r) => some (JsonList.cons v xs, r)
            | none => none) = some (JsonList.cons v (JsonList.cons w tl2), rest)
          rw [ihL (.cons w tl2) rest (by simp only [szL] at hsz ⊢; omega) (by simp)]
    · intro kvs rest hsz hne
      cases kvs with
      | nil => exact absurd rfl hne
      | cons k v tl =>
        cases tl with
        | nil =>
          rw [show dumpObjItems (.cons k v .nil) ++ rbrace :: rest =
            dumpStr k ++ (':' :: (dumpVal v ++ rbrace :: rest)) from by
            simp [dumpObjItems]]
          rw [parseObjItems]
          rw [skipWs_dumpStr, parseStrLit_dumpStr]
          show (match parseVal f (dumpVal v ++ rbrace :: rest) with
            | none => none
            | some (v2, rest3) =>
              match skipWs rest3 with
              | [] => none
              | c2 :: rest4 =>
                if c2 = ',' then
                  match parseObjItems f rest4 with
                  | some (kvs, r) => some (JsonObjList.cons k v2 kvs, r)
                  | none => none
                else if c2 = rbrace then some (JsonObjList.cons k v2 JsonObjList.nil, rest4)
                else none) = some (JsonObjList.cons k v JsonObjList.nil, rest)
          rw [ihV v (rbrace :: rest) (by simp only [szO] at hsz; omega)
            (fun c hc => by simp at hc; subst hc; rfl)]
          rfl
        | cons k2 w tl2 =>
          rw [show dumpObjItems (.cons k v (.cons k2 w tl2)) ++ rbrace :: rest =
            dumpStr k ++ (':' :: (dumpVal v ++ ',' ::
              (dumpObjItems (.cons k2 w tl2) ++ rbrace :: rest))) from by
            simp [dumpObjItems, List.append_assoc]]
          rw [parseObjItems]
          rw [skipWs_dumpStr, parseStrLit_dumpStr]
          show (match parseVal f (dumpVal v ++ ',' ::
              (dumpObjItems (.cons k2 w tl2) ++ rbrace :: rest)) with
            | none => none
            | some (v2, rest3) =>
              match skipWs rest3 with
              | [] => none
              | c2 :: rest4 =>
                if c2 = ',' then
                  match parseObjItems f rest4 with
                  | some (kvs, r) => some (JsonObjList.cons k v2 kvs, r)
                  | none => none
                else if c2 = rbrace then some (JsonObjList.cons k v2 JsonObjList.nil, rest4)
                else none) = some (JsonObjList.cons k v (JsonObjList.cons k2 w tl2), rest)
          rw [ihV v _ (by simp only [szO] at hsz; omega)
            (fun c hc => by simp at hc; subst hc; rfl)]
          show (match parseObjItems f (dumpObjItems (.cons k2 w tl2) ++ rbrace :: rest) with
            | some (kvs, r) => some (JsonObjList.cons k v kvs, r)
            | none => none) = some (JsonObjList.cons k v (JsonObjList.cons k2 w tl2), rest)
          rw [ihO (.cons k2 w tl2) rest (by simp only [szO] at hsz ⊢; omega) (by simp)]

theorem sz_le_dump : ∀ fuel : Nat,
    (∀ v, szV v ≤ fuel → szV v ≤ (dumpVal v).length) ∧
    (∀ xs, szL xs ≤ fuel → szL xs ≤ (dumpArrItems xs).length + 1) ∧
    (∀ kvs, szO kvs ≤ fuel → szO kvs ≤ (dumpObjItems kvs).length + 1) := by
  intro fuel
  induction fuel with
  | zero =>
    refine ⟨fun v hv => absurd hv (by have := szV_pos v; omega), fun xs hxs => ?_,
      fun kvs hkvs => ?_⟩
    · cases xs with
      | nil => simp [szL]
      | cons v tl => exact absurd hxs (by have := szV_pos v; simp only [szL]; omega)
    · cases kvs with
      | nil => simp [szO]
      | cons k v tl => exact absurd hkvs (by have := szV_pos v; simp only [szO]; omega)
  | succ f ih =>
    obtain ⟨ihV, ihL, ihO⟩ := ih
    refine ⟨?_, ?_, ?_⟩
    · intro v hv
      cases v with
      | null => decide
      | bool b => cases b <;> decide
      | num i =>
        obtain ⟨c, cs, h, _⟩ := dumpInt_head i
        show szV (Json.num i) ≤ (dumpInt i).length
        rw [h]
        simp only [szV, List.length_cons]
        omega
      | dec neg ip t =>
        obtain ⟨c, cs, h, _⟩ := dumpDec_head neg ip t
        show szV (Json.dec neg ip t) ≤ (dumpDec neg ip t).length
        rw [h]
        simp only [szV, List.length_cons]
        omega
      | inf b => cases b <;> decide
      | nan => decide
      | str s =>
        show szV (Json.str s) ≤ (dumpStr s).length
        simp only [szV, dumpStr, List.length_cons, List.length_append]
        omega
      | arr xs =>
        cases xs with
        | nil => decide
        | cons w tl =>
          have hq := ihL (.cons w tl) (by simp only [szV] at hv; omega)
          show szV (Json.arr (.cons w tl)) ≤
            ('[' :: (dumpArrItems (.cons w tl) ++ [']'])).length
          simp only [szV, List.length_cons, List.length_append] at hq ⊢
          omega
      | obj kvs =>
        cases kvs with
        | nil => decide
        | cons k w tl =>
          have hq := ihO (.cons k w tl) (by simp only [szV] at hv; omega)
          show szV (Json.obj (.cons k w tl)) ≤
            (lbrace :: (dumpObjItems (.cons k w tl) ++ [rbrace])).length
          simp only [szV, List.length_cons, List.length_append] at hq ⊢
          omega
    · intro xs hxs
      cases xs with
      | nil => simp [szL]
      | cons v tl =>
        cases tl with
        | nil =>
          have hp := ihV v (by simp only [szL] at hxs; omega)
          show szL (.cons v .nil) ≤ (dumpVal v).length + 1
          simp only [szL]
          omega
        | cons w tl2 =>
          have hp := ihV v (by simp only [szL] at hxs; omega)
          have hq := ihL (.cons w tl2) (by simp only [szL] at hxs ⊢; omega)
          show szL (.cons v (.cons w tl2)) ≤
            (dumpVal v ++ ',' :: dumpArrItems (.cons w tl2)).length + 1
          simp only [szL, List.length_append, List.length_cons] at hq ⊢
          omega
    · intro kvs hkvs
      cases kvs with
      | nil => simp [szO]
      | cons k v tl =>
        cases tl with
        | nil =>
          have hp := ihV v (by simp only [szO] at hkvs; omega)
          show szO (.cons k v .nil) ≤ (dumpStr k ++ ':' :: dumpVal v).length + 1
          simp only [szO, List.length_append, List.length_cons]
          omega
        | cons k2 w tl2 =>
          have hp := ihV v (by simp only [szO] at hkvs; omega)
          have hq := ihO (.cons k2 w tl2) (by simp only [szO] at hkvs ⊢; omega)
          show szO (.cons k v (.cons k2 w tl2)) ≤
            ((dumpStr k ++ ':' :: dumpVal v) ++ ',' :: dumpObjItems (.cons k2 w tl2)).length + 1
          simp only [szO, List.length_append, List.length_cons] at hq ⊢
          omega

theorem jsonParse_dumpVal (v : Json) : jsonParse (dumpVal v) = some v := by
  have hsz : szV v ≤ (dumpVal v).length + 1 := by
    have := (sz_le_dump (szV v)).1 v le_rfl
    omega
  have h := (parse_dump ((dumpVal v).length + 1)).1 v [] hsz (fun c hc => by simp at hc)
  rw [List.append_nil] at h
  unfold jsonParse
  rw [h]
  rfl

theorem dump_ascii_all (v : Json) : ∀ c ∈ dumpVal v, c.toNat < 128 :=
  (dump_ascii (szV v)).1 v le_rfl

/-! ## C5: the download/upload round trip -/

/-- C5: the serialized graph round-trips through file download and upload —
for every graph mapping whose values each validate as an `OutNode`, parsing
the downloaded content (`json.dumps` of the graph, base64-encoded into the
upload data URL) with `parse_uploaded_contents` returns exactly the original
mapping. -/
theorem graph_roundtrips_through_download_upload (nodes : JsonObjList)
    (h : allOutNodes nodes = true) :
    parse_uploaded_contents (uploadContents nodes) = .ok (some (.obj nodes)) := by
  unfold parse_uploaded_contents uploadContents
  rw [splitComma_two _ _ (by decide) (b64encode_no_comma _)]
  have hb : ∀ b ∈ (downloadContent nodes).map Char.toNat, b < 128 := by
    intro b hbm
    simp only [List.mem_map] at hbm
    obtain ⟨c, hc, rfl⟩ := hbm
    exact dump_ascii_all (.obj nodes) c hc
  have h1 := b64decode_encode ((downloadContent nodes).map Char.toNat)
    (fun b hbm => by have := hb b hbm; omega)
  have h2 := utf8decode_ascii ((downloadContent nodes).map Char.toNat) hb
  have h3 : jsonParse (downloadContent nodes) = some (.obj nodes) :=
    jsonParse_dumpVal (.obj nodes)
  simp only [h1, h2, map_ofNat_toNat, h3]
  rw [if_pos h]

theorem graph_roundtrips_through_download_upload_witness :
    allOutNodes wNodes = true ∧
      parse_uploaded_contents (uploadContents wNodes) = .ok (some (.obj wNodes)) :=
  ⟨rfl, graph_roundtrips_through_download_upload wNodes rfl⟩

/-! ## C9: partial exception safety of `parse_uploaded_contents` -/

end FlowfuncSample